import Mathlib

/-!
Verification of the response-orchestration and link-integrity layer of the
chatbot repository (`app/ai_engine.py`), against its natural-language
specification.

Modelling conventions:
* Python strings are modelled as `List Char`; `"…".data` injects Lean string
  literals.  Only ASCII whitespace is modelled for `str.strip` / `\s` / `str.isspace`
  (the inputs handled by this module are ASCII).
* Network-dependent primitives (`_verify_working_url`, `_verify_urls_parallel`)
  are parameters: a function `verify : List Char → List Char` mapping a URL to
  its verified (possibly redirect-resolved) form, or `[]` when verification
  fails — exactly the url→result map the parallel coordinator produces.
* Scanning loops are written with an explicit fuel argument (always called with
  fuel ≥ the input length) so that every definition is a structural recursion
  that the kernel can evaluate.
* `time.time()` values and cooldown seconds are modelled as `ℚ`.
-/

/-- ASCII model of Python's `str.isspace` / regex `\s`:
space, tab, newline, carriage return, vertical tab, form feed. -/
def isPySpace (c : Char) : Bool :=
  c = ' ' ∨ c = '\t' ∨ c = '\n' ∨ c = '\r' ∨ c = Char.ofNat 11 ∨ c = Char.ofNat 12

/-- Python `str.strip()` (ASCII whitespace). -/
def pyStrip (s : List Char) : List Char :=
  ((s.dropWhile isPySpace).reverse.dropWhile isPySpace).reverse

/-- The characters `,.;:!?]}` stripped from the tail of an extracted URL
(`_normalize_extracted_url`, first `while` loop). -/
def trailPunct (c : Char) : Bool :=
  c = ',' ∨ c = '.' ∨ c = ';' ∨ c = ':' ∨ c = '!' ∨ c = '?' ∨ c = ']' ∨ c = Char.ofNat 125

/-- Second `while` loop of `_normalize_extracted_url`: drop a trailing `)`
while the string has more `)` than `(`.  Fuel ≥ length. -/
def stripParensGo : Nat → List Char → List Char
  | 0, s => s
  | fuel + 1, s =>
    if s.getLast? = some (Char.ofNat 41) ∧ s.count (Char.ofNat 40) < s.count (Char.ofNat 41) then
      stripParensGo fuel s.dropLast
    else s

/-- `_normalize_extracted_url` (ai_engine.py:76-82): strip whitespace, drop
trailing punctuation, drop unbalanced trailing parens, strip again. -/
def _normalize_extracted_url (u : List Char) : List Char :=
  let n1 := pyStrip u
  let n2 := (n1.reverse.dropWhile trailPunct).reverse
  let n3 := stripParensGo n2.length n2
  pyStrip n3

/-- A character allowed inside a URL match: the regex class `[^\s<>"]`. -/
def urlChar (c : Char) : Bool :=
  ¬ (isPySpace c = true) ∧ c ≠ '<' ∧ c ≠ '>' ∧ c ≠ Char.ofNat 34

/-- One attempt of `URL_PATTERN` (`https?://[^\s<>"]+`) anchored at the head of
`s`: on success returns the (greedy) match and the remaining text. -/
def matchUrlAt (s : List Char) : Option (List Char × List Char) :=
  if "https://".data <+: s then
    let rest := s.drop 8
    let run := rest.takeWhile urlChar
    if run = [] then none else some ("https://".data ++ run, rest.dropWhile urlChar)
  else if "http://".data <+: s then
    let rest := s.drop 7
    let run := rest.takeWhile urlChar
    if run = [] then none else some ("http://".data ++ run, rest.dropWhile urlChar)
  else none

/-- `re.finditer(URL_PATTERN, s)` as a partition of `s`: a list of
(gap-before-match, match) pairs plus the trailing gap.  Fuel ≥ length. -/
def splitUrlsGo : Nat → List Char → List (List Char × List Char) × List Char
  | 0, s => ([], s)
  | _ + 1, [] => ([], [])
  | fuel + 1, c :: cs =>
    match matchUrlAt (c :: cs) with
    | some (m, rest) =>
      let r := splitUrlsGo fuel rest
      (([], m) :: r.1, r.2)
    | none =>
      let r := splitUrlsGo fuel cs
      match r.1 with
      | [] => ([], c :: r.2)
      | (g, m) :: ps => ((c :: g, m) :: ps, r.2)

/-- The matches of `URL_PATTERN` in `s`, with their surrounding gaps. -/
def splitUrls (s : List Char) : List (List Char × List Char) × List Char :=
  splitUrlsGo s.length s

/-- `_extract_urls` (ai_engine.py:175-184): normalized match texts, skipping
empties and previously seen URLs. -/
def _extract_urls (text : List Char) : List (List Char) :=
  (((splitUrls text).1.map fun p => _normalize_extracted_url p.2).foldl
    (fun acc n => if n = [] ∨ n ∈ acc then acc else acc ++ [n]) [])

/-- First-occurrence-order deduplication (specification-side helper used to
state properties of the `seen`-set loops). -/
def dedupFirstAux {α : Type} [DecidableEq α] (seen : List α) : List α → List α
  | [] => []
  | x :: xs => if x ∈ seen then dedupFirstAux seen xs else x :: dedupFirstAux (seen ++ [x]) xs

/-- Deduplicate keeping the first occurrence of each element. -/
def dedupFirst {α : Type} [DecidableEq α] (l : List α) : List α := dedupFirstAux [] l

/-! ### The five cleanup substitutions at the end of `_sanitize_answer_links` -/

/-- `c ∈ { space, tab }` — the class `[ \t]`. -/
def spTab (c : Char) : Bool := c = ' ' ∨ c = '\t'

/-- `re.sub(r"[ \t]{2,}", " ", s)`: each maximal run of ≥ 2 spaces/tabs
becomes one space.  Fuel ≥ length. -/
def collapseSpacesGo : Nat → List Char → List Char
  | 0, s => s
  | _ + 1, [] => []
  | fuel + 1, c :: cs =>
    if spTab c ∧ cs.takeWhile spTab ≠ [] then
      ' ' :: collapseSpacesGo fuel (cs.dropWhile spTab)
    else c :: collapseSpacesGo fuel cs

def collapseSpaces (s : List Char) : List Char := collapseSpacesGo s.length s

/-- `re.sub(r"\(\s*\)", "", s)`: delete `(`, whitespace, `)`.  Fuel ≥ length. -/
def removeEmptyParensGo : Nat → List Char → List Char
  | 0, s => s
  | _ + 1, [] => []
  | fuel + 1, c :: cs =>
    if c = Char.ofNat 40 ∧ (cs.dropWhile isPySpace).head? = some (Char.ofNat 41) then
      removeEmptyParensGo fuel (cs.dropWhile isPySpace).tail
    else c :: removeEmptyParensGo fuel cs

def removeEmptyParens (s : List Char) : List Char := removeEmptyParensGo s.length s

/-- Punctuation class `[,.;:!?]` of the third substitution. -/
def innerPunct (c : Char) : Bool :=
  c = ',' ∨ c = '.' ∨ c = ';' ∨ c = ':' ∨ c = '!' ∨ c = '?'

/-- `re.sub(r"\s+([,.;:!?])", r"\1", s)`: a whitespace run immediately before
punctuation is deleted.  Fuel ≥ length. -/
def fixPunctGo : Nat → List Char → List Char
  | 0, s => s
  | _ + 1, [] => []
  | fuel + 1, c :: cs =>
    if isPySpace c then
      match (c :: cs).dropWhile isPySpace with
      | d :: rest => if innerPunct d then d :: fixPunctGo fuel rest else c :: fixPunctGo fuel cs
      | [] => c :: fixPunctGo fuel cs
    else c :: fixPunctGo fuel cs

def fixPunct (s : List Char) : List Char := fixPunctGo s.length s

/-- `re.sub(r" +\n", "\n", s)`: spaces before a newline are dropped.
Fuel ≥ length. -/
def stripSpcNlGo : Nat → List Char → List Char
  | 0, s => s
  | _ + 1, [] => []
  | fuel + 1, c :: cs =>
    if c = ' ' ∧ (cs.dropWhile fun x => x = ' ').head? = some '\n' then
      '\n' :: stripSpcNlGo fuel (cs.dropWhile fun x => x = ' ').tail
    else c :: stripSpcNlGo fuel cs

def stripSpcNl (s : List Char) : List Char := stripSpcNlGo s.length s

/-- `re.sub(r"\n{3,}", "\n\n", s)`: runs of ≥ 3 newlines become two.
Fuel ≥ length. -/
def collapseNlGo : Nat → List Char → List Char
  | 0, s => s
  | _ + 1, [] => []
  | fuel + 1, c :: cs =>
    if c = '\n' ∧ 2 ≤ (cs.takeWhile fun x => x = '\n').length then
      '\n' :: '\n' :: collapseNlGo fuel (cs.dropWhile fun x => x = '\n')
    else c :: collapseNlGo fuel cs

def collapseNl (s : List Char) : List Char := collapseNlGo s.length s

/-- The whole cleanup block of `_sanitize_answer_links` (ai_engine.py:261-265):
five `re.sub` passes followed by `.strip()`. -/
def cleanupRebuilt (s : List Char) : List Char :=
  pyStrip (collapseNl (stripSpcNl (fixPunct (removeEmptyParens (collapseSpaces s)))))

/-! ### `_sanitize_answer_links` -/

/-- Accumulator of the rebuild loop in `_sanitize_answer_links`
(`out_parts` / `removed_unverified` / `failed_urls`; the `seen_failed_urls`
set always holds exactly the members of `failed`). -/
structure SanAcc where
  out : List Char
  removed : Bool
  failed : List (List Char)

/-- One iteration of the rebuild loop (ai_engine.py:238-257) on a
(gap, raw-match) pair.  `verify` is the `verified_by_url` lookup: every
non-empty normalized match is a key of that dict, so `verified_by_url.get(n, "")`
is `verify n`. -/
def sanStep (verify : List Char → List Char) (acc : SanAcc) (p : List Char × List Char) :
    SanAcc :=
  let raw := p.2
  let n := _normalize_extracted_url raw
  if n = [] then
    -- `continue` without advancing `cursor`: the gap and the raw match are
    -- re-emitted verbatim by the next slice of `answer`.
    { acc with out := acc.out ++ p.1 ++ raw }
  else
    let verified := verify n
    let trailing := if n <+: raw then raw.drop n.length else []
    if verified ≠ [] then
      { acc with out := acc.out ++ p.1 ++ verified ++ trailing }
    else
      { out := acc.out ++ p.1 ++ trailing
        removed := true
        failed := if n ∈ acc.failed then acc.failed else acc.failed ++ [n] }

/-- `_sanitize_answer_links` (ai_engine.py:214-266), parameterized by the link
verifier.  Returns (cleaned text, any-removed flag, failed URLs). -/
def _sanitize_answer_links (verify : List Char → List Char) (answer : List Char) :
    List Char × Bool × List (List Char) :=
  if answer = [] then (answer, false, [])
  else
    let s := splitUrls answer
    if s.1 = [] then (answer, false, [])
    else
      let acc := s.1.foldl (sanStep verify) ⟨[], false, []⟩
      (cleanupRebuilt (acc.out ++ s.2), acc.removed, acc.failed)

/-- The normalized rejected URLs of a match list, in match order and with the
multiplicity of the matches (specification-side helper). -/
def rejectedOf (verify : List Char → List Char) (ps : List (List Char × List Char)) :
    List (List Char) :=
  (ps.map fun p => _normalize_extracted_url p.2).filter
    fun n => decide (n ≠ [] ∧ verify n = [])

/-- The normalized rejected URLs of a sanitization call, in match order. -/
def rejectedUrls (verify : List Char → List Char) (answer : List Char) : List (List Char) :=
  rejectedOf verify (splitUrls answer).1

/-! ### Behaviour of the rebuild fold -/

theorem foldl_sanStep_failed (verify : List Char → List Char)
    (ps : List (List Char × List Char)) :
    ∀ acc : SanAcc,
      (ps.foldl (sanStep verify) acc).failed =
        (rejectedOf verify ps).foldl (fun f n => if n ∈ f then f else f ++ [n]) acc.failed := by
  induction ps with
  | nil => intro acc; rfl
  | cons p ps ih =>
    intro acc
    show (ps.foldl (sanStep verify) (sanStep verify acc p)).failed = _
    rw [ih]
    by_cases h1 : _normalize_extracted_url p.2 = []
    · simp [sanStep, rejectedOf, h1]
    · by_cases h2 : verify (_normalize_extracted_url p.2) = []
      · simp [sanStep, rejectedOf, h1, h2]
      · simp [sanStep, rejectedOf, h1, h2]

theorem foldl_sanStep_removed (verify : List Char → List Char)
    (ps : List (List Char × List Char)) :
    ∀ acc : SanAcc,
      (ps.foldl (sanStep verify) acc).removed =
        (acc.removed || !(rejectedOf verify ps).isEmpty) := by
  induction ps with
  | nil => intro acc; simp [rejectedOf]
  | cons p ps ih =>
    intro acc
    show (ps.foldl (sanStep verify) (sanStep verify acc p)).removed = _
    rw [ih]
    by_cases h1 : _normalize_extracted_url p.2 = []
    · simp [sanStep, rejectedOf, h1]
    · by_cases h2 : verify (_normalize_extracted_url p.2) = []
      · simp [sanStep, rejectedOf, h1, h2]
      · simp [sanStep, rejectedOf, h1, h2]

theorem foldl_insert_eq_dedupFirstAux (l : List (List Char)) :
    ∀ f : List (List Char),
      l.foldl (fun f n => if n ∈ f then f else f ++ [n]) f = f ++ dedupFirstAux f l := by
  induction l with
  | nil => intro f; simp [dedupFirstAux]
  | cons x l ih =>
    intro f
    by_cases hx : x ∈ f
    · simp only [List.foldl_cons, if_pos hx, dedupFirstAux, ih]
    · simp only [List.foldl_cons, if_neg hx, dedupFirstAux, ih, List.append_assoc,
        List.singleton_append]

/-- C1 (amended): for every verifier and answer, `failedUrls` is exactly the
list of normalized rejected URLs, each recorded once, in first-occurrence
order, and `anyRemoved` holds iff at least one URL was rejected.  (The frozen
claim's further conjunct — that the cleaned text contains none of the rejected
URLs — is refuted by the accompanying counterexample.) -/
theorem sanitize_failed_and_flag (verify : List Char → List Char) (answer : List Char) :
    (_sanitize_answer_links verify answer).2.2 = dedupFirst (rejectedUrls verify answer) ∧
    ((_sanitize_answer_links verify answer).2.1 = true ↔ rejectedUrls verify answer ≠ []) := by
  have hfail := foldl_sanStep_failed verify (splitUrls answer).1 ⟨[], false, []⟩
  have hrem := foldl_sanStep_removed verify (splitUrls answer).1 ⟨[], false, []⟩
  unfold _sanitize_answer_links rejectedUrls
  by_cases h0 : answer = []
  · subst h0
    constructor <;> simp [splitUrls, splitUrlsGo, rejectedOf, dedupFirst, dedupFirstAux]
  · simp only [h0, if_false]
    by_cases h1 : (splitUrls answer).1 = []
    · simp [h1, rejectedOf, dedupFirst, dedupFirstAux]
    · simp only [h1, if_false]
      refine ⟨?_, ?_⟩
      · show (List.foldl (sanStep verify) ⟨[], false, []⟩ (splitUrls answer).1).failed = _
        rw [hfail]
        simp only [dedupFirst]
        simpa using foldl_insert_eq_dedupFirstAux (rejectedOf verify (splitUrls answer).1) []
      · show (List.foldl (sanStep verify) ⟨[], false, []⟩ (splitUrls answer).1).removed
          = true ↔ _
        rw [hrem]
        simp [List.isEmpty_iff]

/-- C1 counterexample: with two distinct URLs of which exactly the longer one
verifies (to itself), the cleaned text still contains the rejected URL as a
substring of the surviving verified URL — refuting "the returned cleaned text
contains … none of the rejected URLs". -/
theorem sanitize_rejected_url_still_contained :
    _sanitize_answer_links (fun n => if n = "https://a.com/badx".data then n else [])
        "https://a.com/bad and https://a.com/badx".data
      = ("and https://a.com/badx".data, true, ["https://a.com/bad".data]) ∧
    "and https://a.com/badx".data
      = "and ".data ++ "https://a.com/bad".data ++ "x".data := by
  exact ⟨by decide, by decide⟩

/-- C10: an answer with no URL-shaped token (in particular the empty string)
is returned byte-for-byte unchanged with `anyRemoved = false` and no failed
URLs; none of the cleanup passes run. -/
theorem sanitize_no_urls_frame (verify : List Char → List Char) (answer : List Char)
    (h : (splitUrls answer).1 = []) :
    _sanitize_answer_links verify answer = (answer, false, []) := by
  unfold _sanitize_answer_links
  by_cases h0 : answer = []
  · simp [h0]
  · simp [h0, h]

/-- Witness for `sanitize_no_urls_frame` at a concrete URL-free answer. -/
theorem sanitize_no_urls_frame_witness :
    (splitUrls "hello  world ( ) no links.".data).1 = [] ∧
    _sanitize_answer_links (fun _ => []) "hello  world ( ) no links.".data
      = ("hello  world ( ) no links.".data, false, []) :=
  ⟨by decide, sanitize_no_urls_frame (fun _ => []) _ (by decide)⟩

/-! ### Structure of URL matches (for C7) -/

/-- Rebuild a (gap, match) partition into the text it came from. -/
def flattenGM (ps : List (List Char × List Char)) : List Char :=
  ps.foldr (fun p acc => p.1 ++ p.2 ++ acc) []

theorem flattenGM_cons (p) (ps : List (List Char × List Char)) :
    flattenGM (p :: ps) = p.1 ++ p.2 ++ flattenGM ps := rfl

/-- The shape of USL-pattern matches: scheme literal plus a non-empty run of
URL characters. -/
def urlShaped (m : List Char) : Prop :=
  ∃ pre run, (pre = "https://".data ∨ pre = "http://".data) ∧ run ≠ [] ∧
    (∀ c ∈ run, urlChar c = true) ∧ m = pre ++ run

theorem matchUrlAt_some {s m rest : List Char} (h : matchUrlAt s = some (m, rest)) :
    urlShaped m ∧ m ++ rest = s := by
  unfold matchUrlAt at h
  by_cases h1 : "https://".data <+: s
  · rw [if_pos h1] at h
    by_cases h2 : (s.drop 8).takeWhile urlChar = []
    · rw [if_pos h2] at h; exact absurd h (by simp)
    · rw [if_neg h2] at h
      obtain ⟨hm, hrest⟩ := Prod.mk.injEq .. ▸ Option.some.injEq .. ▸ h
      refine ⟨⟨"https://".data, (s.drop 8).takeWhile urlChar, Or.inl rfl, h2,
        fun c hc => List.mem_takeWhile_imp hc, hm.symm⟩, ?_⟩
      obtain ⟨t, ht⟩ := h1
      have hdrop : s.drop 8 = t := by
        rw [← ht]; exact List.drop_left "https://".data t
      rw [← hm, ← hrest, hdrop, List.append_assoc, List.takeWhile_append_dropWhile, ← ht]
  · rw [if_neg h1] at h
    by_cases h1' : "http://".data <+: s
    · rw [if_pos h1'] at h
      by_cases h2 : (s.drop 7).takeWhile urlChar = []
      · rw [if_pos h2] at h; exact absurd h (by simp)
      · rw [if_neg h2] at h
        obtain ⟨hm, hrest⟩ := Prod.mk.injEq .. ▸ Option.some.injEq .. ▸ h
        refine ⟨⟨"http://".data, (s.drop 7).takeWhile urlChar, Or.inr rfl, h2,
          fun c hc => List.mem_takeWhile_imp hc, hm.symm⟩, ?_⟩
        obtain ⟨t, ht⟩ := h1'
        have hdrop : s.drop 7 = t := by
          rw [← ht]; exact List.drop_left "http://".data t
        rw [← hm, ← hrest, hdrop, List.append_assoc, List.takeWhile_append_dropWhile, ← ht]
    · rw [if_neg h1'] at h; exact absurd h (by simp)

theorem urlShaped_ne_nil {m : List Char} (h : urlShaped m) : m ≠ [] := by
  obtain ⟨pre, run, hpre | hpre, _, _, rfl⟩ := h <;> subst hpre <;> simp

theorem splitUrlsGo_recon :
    ∀ (fuel : Nat) (s : List Char), s.length ≤ fuel →
      flattenGM (splitUrlsGo fuel s).1 ++ (splitUrlsGo fuel s).2 = s := by
  intro fuel
  induction fuel with
  | zero =>
    intro s hs
    have : s = [] := List.eq_nil_of_length_eq_zero (Nat.le_zero.mp hs)
    subst this; rfl
  | succ fuel ih =>
    intro s hs
    match s with
    | [] => rfl
    | c :: cs =>
      cases hm : matchUrlAt (c :: cs) with
      | some pr =>
        obtain ⟨m, rest⟩ := pr
        obtain ⟨hshape, hrecon⟩ := matchUrlAt_some hm
        have hmne : m ≠ [] := urlShaped_ne_nil hshape
        have hrest : rest.length ≤ fuel := by
          have hlen : m.length + rest.length = cs.length + 1 := by
            rw [← List.length_append, hrecon]; simp
          have hmpos : 1 ≤ m.length := by
            cases m with
            | nil => exact absurd rfl hmne
            | cons a as => simp
          simp only [List.length_cons] at hs
          omega
        simp only [splitUrlsGo, hm, flattenGM_cons, List.nil_append, List.append_assoc]
        rw [ih rest hrest, hrecon]
      | none =>
        have hcs : cs.length ≤ fuel := by
          simp only [List.length_cons] at hs; omega
        have ihcs := ih cs hcs
        cases hr : (splitUrlsGo fuel cs).1 with
        | nil =>
          simp only [splitUrlsGo, hm, hr]
          rw [hr] at ihcs
          simp only [flattenGM, List.foldr_nil, List.nil_append] at ihcs ⊢
          rw [ihcs]
        | cons gm ps =>
          obtain ⟨g, m⟩ := gm
          simp only [splitUrlsGo, hm, hr]
          rw [hr] at ihcs
          simp only [flattenGM_cons, List.cons_append, List.append_assoc] at ihcs ⊢
          simp only [flattenGM] at ihcs ⊢
          rw [ihcs]

theorem splitUrlsGo_matches :
    ∀ (fuel : Nat) (s : List Char) (p : List Char × List Char), s.length ≤ fuel →
      p ∈ (splitUrlsGo fuel s).1 → urlShaped p.2 := by
  intro fuel
  induction fuel with
  | zero =>
    intro s p hs hp
    have : s = [] := List.eq_nil_of_length_eq_zero (Nat.le_zero.mp hs)
    subst this; simp [splitUrlsGo] at hp
  | succ fuel ih =>
    intro s p hs hp
    match s with
    | [] => simp [splitUrlsGo] at hp
    | c :: cs =>
      cases hm : matchUrlAt (c :: cs) with
      | some pr =>
        obtain ⟨m, rest⟩ := pr
        obtain ⟨hshape, hrecon⟩ := matchUrlAt_some hm
        have hrest : rest.length ≤ fuel := by
          have hlen : m.length + rest.length = cs.length + 1 := by
            rw [← List.length_append, hrecon]; simp
          have hmpos : 1 ≤ m.length := by
            cases m with
            | nil => exact absurd rfl (urlShaped_ne_nil hshape)
            | cons a as => simp
          simp only [List.length_cons] at hs
          omega
        simp only [splitUrlsGo, hm, List.mem_cons] at hp
        rcases hp with hp | hp
        · subst hp; exact hshape
        · exact ih rest p hrest hp
      | none =>
        have hcs : cs.length ≤ fuel := by
          simp only [List.length_cons] at hs; omega
        cases hr : (splitUrlsGo fuel cs).1 with
        | nil => simp [splitUrlsGo, hm, hr] at hp
        | cons gm ps =>
          obtain ⟨g, m⟩ := gm
          simp only [splitUrlsGo, hm, hr, List.mem_cons] at hp
          rcases hp with hp | hp
          · subst hp
            exact ih cs ⟨g, m⟩ hcs (hr ▸ List.mem_cons_self _ _)
          · exact ih cs p hcs (hr ▸ List.mem_cons_of_mem _ hp)

/-! ### `_normalize_extracted_url` on URL-shaped matches -/

theorem dropWhile_eq_self_of_headFalse (p : Char → Bool) (s : List Char)
    (h : ∀ c, s.head? = some c → p c = false) : s.dropWhile p = s := by
  cases s with
  | nil => rfl
  | cons c cs =>
    rw [List.dropWhile_cons, if_neg]
    simp [h c rfl]

theorem dropWhile_append_headFalse (p : Char → Bool) (a b : List Char)
    (hb : ∀ c, b.head? = some c → p c = false) :
    (a ++ b).dropWhile p = a.dropWhile p ++ b := by
  induction a with
  | nil =>
    simp only [List.nil_append, List.dropWhile_nil]
    exact dropWhile_eq_self_of_headFalse p b hb
  | cons c a ih =>
    by_cases hc : p c
    · simp only [List.cons_append, List.dropWhile_cons, hc, if_true, ih]
    · simp only [List.cons_append, List.dropWhile_cons]
      rw [if_neg (by simp [hc]), if_neg (by simp [hc])]
      rfl

theorem pyStrip_eq_self {s : List Char}
    (h1 : ∀ c, s.head? = some c → isPySpace c = false)
    (h2 : ∀ c, s.getLast? = some c → isPySpace c = false) : pyStrip s = s := by
  unfold pyStrip
  rw [dropWhile_eq_self_of_headFalse isPySpace s h1,
    dropWhile_eq_self_of_headFalse isPySpace s.reverse
      (fun c hc => h2 c (by rwa [List.head?_reverse] at hc)),
    List.reverse_reverse]

theorem stripParensGo_keeps (a : List Char) (ha : a.getLast? = some (Char.ofNat 47)) :
    ∀ (fuel : Nat) (b : List Char),
      ∃ b', b' <+: b ∧ stripParensGo fuel (a ++ b) = a ++ b' := by
  intro fuel
  induction fuel with
  | zero => intro b; exact ⟨b, List.prefix_rfl, rfl⟩
  | succ fuel ih =>
    intro b
    unfold stripParensGo
    by_cases hcond : (a ++ b).getLast? = some (Char.ofNat 41) ∧
        (a ++ b).count (Char.ofNat 40) < (a ++ b).count (Char.ofNat 41)
    · rw [if_pos hcond]
      have hbne : b ≠ [] := by
        intro hb
        subst hb
        rw [List.append_nil] at hcond
        rw [ha] at hcond
        exact absurd hcond.1 (by decide)
      have hsplit : b.dropLast ++ [b.getLast hbne] = b := List.dropLast_concat_getLast hbne
      have hdrop : (a ++ b).dropLast = a ++ b.dropLast := by
        conv_lhs => rw [← hsplit]
        rw [← List.append_assoc, List.dropLast_concat]
      rw [hdrop]
      obtain ⟨b', hb', heq⟩ := ih b.dropLast
      refine ⟨b', ?_, heq⟩
      have : b.dropLast <+: b := by
        conv_rhs => rw [← hsplit]
        exact List.prefix_append _ _
      exact hb'.trans this
    · rw [if_neg hcond]
      exact ⟨b, List.prefix_rfl, rfl⟩

theorem urlChar_not_space {c : Char} (h : urlChar c = true) : isPySpace c = false := by
  simp only [urlChar, decide_eq_true_eq] at h
  simpa using h.1

theorem head?_append_of_ne_nil {a : List Char} (b : List Char) (ha : a ≠ []) :
    (a ++ b).head? = a.head? := by
  cases a with
  | nil => exact absurd rfl ha
  | cons c cs => rfl

/-- On a URL-shaped match, normalization yields a non-empty prefix of the match. -/
theorem normalize_of_shape (pre run : List Char) (hpre_ne : pre ≠ [])
    (hpreh : ∀ c, pre.head? = some c → isPySpace c = false)
    (hprel : pre.getLast? = some (Char.ofNat 47))
    (hrun : run ≠ []) (hchars : ∀ c ∈ run, urlChar c = true) :
    _normalize_extracted_url (pre ++ run) ≠ [] ∧
      _normalize_extracted_url (pre ++ run) <+: pre ++ run := by
  have hslash_space : isPySpace (Char.ofNat 47) = false := by decide
  have hslash_punct : trailPunct (Char.ofNat 47) = false := by decide
  -- step 1: the outer strip is a no-op
  have h1 : pyStrip (pre ++ run) = pre ++ run := by
    refine pyStrip_eq_self ?_ ?_
    · intro c hc
      rw [head?_append_of_ne_nil run hpre_ne] at hc
      exact hpreh c hc
    · intro c hc
      rw [List.getLast?_append] at hc
      cases hgl : run.getLast? with
      | none => exact absurd (List.getLast?_eq_none_iff.mp hgl) hrun
      | some lc =>
        rw [hgl, Option.or_some] at hc
        cases hc
        exact urlChar_not_space (hchars c (List.mem_of_getLast?_eq_some hgl))
  -- step 2: trailing-punctuation strip keeps `pre`
  have h2 : ((pre ++ run).reverse.dropWhile trailPunct).reverse
      = pre ++ (run.reverse.dropWhile trailPunct).reverse := by
    rw [List.reverse_append,
      dropWhile_append_headFalse trailPunct run.reverse pre.reverse
        (fun c hc => by
          rw [List.head?_reverse, hprel] at hc
          cases hc
          exact hslash_punct),
      List.reverse_append, List.reverse_reverse]
  set run2 : List Char := (run.reverse.dropWhile trailPunct).reverse with hrun2def
  have hrun2 : run2 <+: run := by
    rw [← List.reverse_suffix, hrun2def, List.reverse_reverse]
    exact List.dropWhile_suffix trailPunct
  have hrun2mem : ∀ c ∈ run2, urlChar c = true := fun c hc =>
    hchars c (hrun2.sublist.subset hc)
  -- step 3: the unbalanced-paren strip keeps `pre`
  obtain ⟨run3, hrun3, h3⟩ :=
    stripParensGo_keeps pre hprel ((pre ++ run2).length) run2
  have hrun3r : run3 <+: run := hrun3.trans hrun2
  have hrun3mem : ∀ c ∈ run3, urlChar c = true := fun c hc =>
    hchars c (hrun3r.sublist.subset hc)
  -- step 4: the final strip is a no-op
  have h4 : pyStrip (pre ++ run3) = pre ++ run3 := by
    refine pyStrip_eq_self ?_ ?_
    · intro c hc
      rw [head?_append_of_ne_nil run3 hpre_ne] at hc
      exact hpreh c hc
    · intro c hc
      rw [List.getLast?_append] at hc
      cases hgl : run3.getLast? with
      | none =>
        rw [hgl, Option.none_or, hprel] at hc
        cases hc
        exact hslash_space
      | some lc =>
        rw [hgl, Option.or_some] at hc
        cases hc
        exact urlChar_not_space (hrun3mem c (List.mem_of_getLast?_eq_some hgl))
  -- assemble
  have hnorm : _normalize_extracted_url (pre ++ run) = pre ++ run3 := by
    unfold _normalize_extracted_url
    simp only [h1, h2, h3, h4]
  rw [hnorm]
  constructor
  · cases pre with
    | nil => exact absurd rfl hpre_ne
    | cons c cs => simp
  · exact (List.prefix_append_right_inj pre).mpr hrun3r

theorem urlShaped_normalize {m : List Char} (h : urlShaped m) :
    _normalize_extracted_url m ≠ [] ∧ _normalize_extracted_url m <+: m := by
  obtain ⟨pre, run, hpre, hrun, hchars, rfl⟩ := h
  rcases hpre with rfl | rfl
  · exact normalize_of_shape "https://".data run (by decide)
      (by intro c hc; cases hc; decide) (by decide) hrun hchars
  · exact normalize_of_shape "http://".data run (by decide)
      (by intro c hc; cases hc; decide) (by decide) hrun hchars

/-! ### Membership in `_extract_urls` -/

theorem extract_foldl_superset (l : List (List Char)) :
    ∀ acc : List (List Char),
      acc ⊆ l.foldl (fun acc n => if n = [] ∨ n ∈ acc then acc else acc ++ [n]) acc := by
  induction l with
  | nil => intro acc; exact fun x hx => hx
  | cons n l ih =>
    intro acc
    by_cases hn : n = [] ∨ n ∈ acc
    · simpa only [List.foldl_cons, if_pos hn] using ih acc
    · simp only [List.foldl_cons, if_neg hn]
      intro x hx
      exact ih (acc ++ [n]) (List.mem_append_left [n] hx)

theorem extract_foldl_mem (l : List (List Char)) :
    ∀ acc : List (List Char), ∀ x ∈ l, x ≠ [] →
      x ∈ l.foldl (fun acc n => if n = [] ∨ n ∈ acc then acc else acc ++ [n]) acc := by
  induction l with
  | nil => intro acc x hx; exact absurd hx (List.not_mem_nil x)
  | cons n l ih =>
    intro acc x hx hxne
    rcases List.mem_cons.mp hx with rfl | hx'
    · by_cases hn : x = [] ∨ x ∈ acc
      · rcases hn with hn | hn
        · exact absurd hn hxne
        · simp only [List.foldl_cons, if_pos (Or.inr hn)]
          exact extract_foldl_superset l acc hn
      · simp only [List.foldl_cons, if_neg hn]
        exact extract_foldl_superset l (acc ++ [x]) (List.mem_append_right acc (by simp))
    · by_cases hn : n = [] ∨ n ∈ acc
      · simp only [List.foldl_cons, if_pos hn]
        exact ih acc x hx' hxne
      · simp only [List.foldl_cons, if_neg hn]
        exact ih (acc ++ [n]) x hx' hxne

theorem mem_extract_urls {answer : List Char} {p : List Char × List Char}
    (hp : p ∈ (splitUrls answer).1) (hne : _normalize_extracted_url p.2 ≠ []) :
    _normalize_extracted_url p.2 ∈ _extract_urls answer := by
  unfold _extract_urls
  exact extract_foldl_mem _ [] _ (List.mem_map_of_mem _ hp) hne

/-! ### C7: sanitization of an already-clean answer -/

theorem prefix_self_append_drop {n s : List Char} (h : n <+: s) :
    n ++ s.drop n.length = s := by
  obtain ⟨t, rfl⟩ := h
  rw [List.drop_left]

theorem foldl_sanStep_selfverified (verify : List Char → List Char)
    (ps : List (List Char × List Char))
    (h : ∀ p ∈ ps, _normalize_extracted_url p.2 ≠ [] ∧
        verify (_normalize_extracted_url p.2) = _normalize_extracted_url p.2 ∧
        _normalize_extracted_url p.2 <+: p.2) :
    ∀ acc : SanAcc,
      ps.foldl (sanStep verify) acc = ⟨acc.out ++ flattenGM ps, acc.removed, acc.failed⟩ := by
  induction ps with
  | nil => intro acc; simp [flattenGM]
  | cons p ps ih =>
    intro acc
    obtain ⟨hne, hself, hpref⟩ := h p (List.mem_cons_self p ps)
    have hstep : sanStep verify acc p = { acc with out := acc.out ++ p.1 ++ p.2 } := by
      simp only [sanStep, hself]
      rw [if_neg hne, if_pos hpref, if_pos hne]
      rw [List.append_assoc (acc.out ++ p.1), prefix_self_append_drop hpref]
    rw [List.foldl_cons, hstep,
      ih (fun q hq => h q (List.mem_cons_of_mem p hq)) { acc with out := acc.out ++ p.1 ++ p.2 }]
    simp [flattenGM_cons, List.append_assoc]

/-- C7 (amended): if every URL extracted from the answer verifies to itself,
sanitization removes nothing (`anyRemoved = false`, empty `failedUrls`) and the
cleaned text is the whitespace-cleanup normal form of the input — equal to the
input itself when the input has no URL match, but not in general, because the
cleanup passes are not idempotent, as the accompanying counterexample shows. -/
theorem sanitize_selfverified (verify : List Char → List Char) (answer : List Char)
    (h : ∀ u ∈ _extract_urls answer, verify u = u) :
    _sanitize_answer_links verify answer =
      (if (splitUrls answer).1 = [] then answer else cleanupRebuilt answer, false, []) := by
  unfold _sanitize_answer_links
  by_cases h0 : answer = []
  · subst h0
    simp [splitUrls, splitUrlsGo]
  · simp only [h0, if_false]
    by_cases h1 : (splitUrls answer).1 = []
    · simp [h1]
    · simp only [h1, if_false]
      have hps : ∀ p ∈ (splitUrls answer).1, _normalize_extracted_url p.2 ≠ [] ∧
          verify (_normalize_extracted_url p.2) = _normalize_extracted_url p.2 ∧
          _normalize_extracted_url p.2 <+: p.2 := by
        intro p hp
        have hshape := splitUrlsGo_matches answer.length answer p (Nat.le_refl _) hp
        obtain ⟨hne, hprefix⟩ := urlShaped_normalize hshape
        exact ⟨hne, h _ (mem_extract_urls hp hne), hprefix⟩
      rw [foldl_sanStep_selfverified verify (splitUrls answer).1 hps ⟨[], false, []⟩]
      have hrecon : flattenGM (splitUrls answer).1 ++ (splitUrls answer).2 = answer :=
        splitUrlsGo_recon answer.length answer (Nat.le_refl _)
      show (cleanupRebuilt ([] ++ flattenGM (splitUrls answer).1 ++ (splitUrls answer).2),
          false, []) = _
      rw [List.nil_append, hrecon]

/-- C7 counterexample: the input `"https://x.y ( ) b"` sanitizes (with every
URL verifying to itself) to `"https://x.y  b"` with nothing removed; yet
sanitizing that output again changes it (the space run left by the
empty-parenthesis removal is collapsed), so sanitization is not idempotent. -/
theorem sanitize_not_idempotent_cex :
    (_sanitize_answer_links (fun u => u) "https://x.y ( ) b".data).2.1 = false ∧
    (_sanitize_answer_links (fun u => u) "https://x.y ( ) b".data).1
      = "https://x.y  b".data ∧
    (∀ u ∈ _extract_urls "https://x.y  b".data, (fun u => u) u = u) ∧
    (_sanitize_answer_links (fun u => u) "https://x.y  b".data).1
      ≠ "https://x.y  b".data := by
  exact ⟨by decide, by decide, fun _ _ => rfl, by decide⟩

/-- Witness for `sanitize_selfverified` at a concrete answer with one URL. -/
theorem sanitize_selfverified_witness :
    (∀ u ∈ _extract_urls "see https://ok.io now".data, (fun x : List Char => x) u = u) ∧
    _sanitize_answer_links (fun x : List Char => x) "see https://ok.io now".data =
      (if (splitUrls "see https://ok.io now".data).1 = [] then "see https://ok.io now".data
       else cleanupRebuilt "see https://ok.io now".data, false, []) :=
  ⟨fun _ _ => rfl,
   sanitize_selfverified (fun x : List Char => x) "see https://ok.io now".data
     (fun _ _ => rfl)⟩

/-! ## Model Cooldown Registry (`_mark_model_unavailable`, `_model_skip_reason`) -/

/-- `MODEL_MIN_COOLDOWN_SECONDS` (ai_engine.py:39). -/
def MODEL_MIN_COOLDOWN_SECONDS : ℚ := 30

/-- `MODEL_LONG_COOLDOWN_SECONDS` (ai_engine.py:40). -/
def MODEL_LONG_COOLDOWN_SECONDS : ℚ := 3600

/-- Find the first index ≥ `start` at which `pat` occurs in the remaining
text (Python `str.find(pat, start)`), as an index-carrying scan. -/
def findSubGo (pat : List Char) : List Char → Nat → Option Nat
  | [], i => if pat = [] then some i else none
  | c :: cs, i => if pat <+: (c :: cs) then some i else findSubGo pat cs (i + 1)

/-- Python `text.find(pat, start)` (with `none` for `-1`). -/
def strFind (text pat : List Char) (start : Nat) : Option Nat :=
  findSubGo pat (text.drop start) start

/-- Python `pat in text` (substring containment). -/
def containsSub (text pat : List Char) : Bool :=
  (strFind text pat 0).isSome

/-- Value of a list of decimal digit characters. -/
def natOfDigits (l : List Char) : Nat :=
  l.foldl (fun a c => a * 10 + (c.toNat - 48)) 0

/-- One attempt of the numeric tail of `MODEL_RETRY_AFTER_PATTERN`
(`([0-9]+(?:\.[0-9]+)?)s`) at the head of `s` (already lowercased). -/
def parseRetryNum (s : List Char) : Option ℚ :=
  let ds := s.takeWhile Char.isDigit
  if ds = [] then none
  else
    match s.dropWhile Char.isDigit with
    | c :: cs =>
      if c = '.' then
        let fs := cs.takeWhile Char.isDigit
        if fs = [] then none
        else
          match cs.dropWhile Char.isDigit with
          | 's' :: _ => some ((natOfDigits ds : ℚ) + (natOfDigits fs : ℚ) / (10 : ℚ) ^ fs.length)
          | _ => none
      else if c = 's' then some (natOfDigits ds : ℚ)
      else none
    | [] => none

/-- Leftmost match of `MODEL_RETRY_AFTER_PATTERN`
(`please retry in ([0-9]+(?:\.[0-9]+)?)s`, IGNORECASE) over an already
lowercased text.  Fuel ≥ length. -/
def retryScanGo : Nat → List Char → Option ℚ
  | 0, _ => none
  | _ + 1, [] => none
  | fuel + 1, c :: cs =>
    if "please retry in ".data <+: (c :: cs) then
      match parseRetryNum ((c :: cs).drop "please retry in ".data.length) with
      | some q => some q
      | none => retryScanGo fuel cs
    else retryScanGo fuel cs

/-- `_extract_retry_after_seconds` (ai_engine.py:427-434). -/
def _extract_retry_after_seconds (body : List Char) : ℚ :=
  (retryScanGo body.length (body.map Char.toLower)).getD 0

/-- The cooldown floor chosen by `_mark_model_unavailable` (ai_engine.py:448-450):
the long cooldown on a zero-quota tier (`"limit: 0"` case-insensitively),
else the minimum cooldown. -/
def cooldownFloor (body : List Char) : ℚ :=
  if containsSub (body.map Char.toLower) "limit: 0".data then MODEL_LONG_COOLDOWN_SECONDS
  else MODEL_MIN_COOLDOWN_SECONDS

/-- The process-wide model registry: `_MODEL_SKIP_UNTIL` (with `.get(m, 0.0)`
semantics) and `_MODEL_PERMANENTLY_UNAVAILABLE`.  All accesses happen under
`_MODEL_STATE_LOCK`, so calls are modelled as sequential state updates. -/
structure ModelRegistry where
  skipUntil : String → ℚ
  permanentlyUnavailable : String → Bool

/-- `_mark_model_unavailable` (ai_engine.py:437-455).  `status` is an `Option`:
`none` models the non-integer `"N/A"` placeholder status. -/
def _mark_model_unavailable (now : ℚ) (model : String) (status : Option Int)
    (body : List Char) (st : ModelRegistry) : ModelRegistry :=
  if status = some 404 then
    { st with permanentlyUnavailable := fun m => if m = model then true
        else st.permanentlyUnavailable m }
  else if status = some 403 ∨ status = some 429 then
    let retryAfter := _extract_retry_after_seconds body
    let cooldown := max retryAfter (cooldownFloor body)
    let untilT := now + cooldown
    if st.skipUntil model < untilT then
      { st with skipUntil := fun m => if m = model then untilT else st.skipUntil m }
    else st
  else st

/-- The result of `_model_skip_reason`: the string `"permanent_unavailable"`,
a formatted `"cooldown_{remaining}s"` string (its numeric payload kept as ℚ),
or the empty string (eligible). -/
inductive SkipReason where
  | permanentUnavailable : SkipReason
  | cooldown : ℚ → SkipReason
  | eligible : SkipReason
deriving DecidableEq

/-- `_model_skip_reason` (ai_engine.py:458-466). -/
def _model_skip_reason (now : ℚ) (st : ModelRegistry) (model : String) : SkipReason :=
  if st.permanentlyUnavailable model then SkipReason.permanentUnavailable
  else if now < st.skipUntil model then SkipReason.cooldown (st.skipUntil model - now)
  else SkipReason.eligible

/-- The models the request orchestrator actually attempts (ai_engine.py:591-595):
those whose skip reason is empty at the time they are considered. -/
def chatEligibleModels (now : ℚ) (st : ModelRegistry) (models : List String) : List String :=
  models.filter fun m => decide (_model_skip_reason now st m = SkipReason.eligible)

/-- One recorded `markUnavailable` call. -/
structure MarkCall where
  now : ℚ
  model : String
  status : Option Int
  body : List Char

/-- Apply a sequence of `markUnavailable` calls (they are serialized by the
registry lock). -/
def applyMarks (calls : List MarkCall) (st : ModelRegistry) : ModelRegistry :=
  calls.foldl (fun s c => _mark_model_unavailable c.now c.model c.status c.body s) st

/-- C4: cooldown monotonicity.  A single `markUnavailable` never decreases any
model's recorded cooldown end; neither does any serialized sequence of calls;
and a write whose computed cooldown end `now + max(hinted, floor)` does not
exceed the existing one leaves the registry exactly as it was. -/
theorem cooldown_monotonic :
    (∀ (now : ℚ) (model : String) (status : Option Int) (body : List Char)
        (st : ModelRegistry) (m : String),
      st.skipUntil m ≤ (_mark_model_unavailable now model status body st).skipUntil m) ∧
    (∀ (calls : List MarkCall) (st : ModelRegistry) (m : String),
      st.skipUntil m ≤ (applyMarks calls st).skipUntil m) ∧
    (∀ (now : ℚ) (model : String) (status : Option Int) (body : List Char)
        (st : ModelRegistry),
      (status = some 403 ∨ status = some 429) →
      now + max (_extract_retry_after_seconds body) (cooldownFloor body) ≤ st.skipUntil model →
      _mark_model_unavailable now model status body st = st) := by
  have hstep : ∀ (now : ℚ) (model : String) (status : Option Int) (body : List Char)
      (st : ModelRegistry) (m : String),
      st.skipUntil m ≤ (_mark_model_unavailable now model status body st).skipUntil m := by
    intro now model status body st m
    simp only [_mark_model_unavailable]
    split_ifs with h1 h2 h3
    · exact le_refl _
    · show st.skipUntil m ≤ if m = model then _ else st.skipUntil m
      by_cases hm : m = model
      · rw [if_pos hm]; subst hm; exact le_of_lt h3
      · rw [if_neg hm]
    · exact le_refl _
    · exact le_refl _
  refine ⟨hstep, ?_, ?_⟩
  · intro calls
    induction calls with
    | nil => intro st m; exact le_refl _
    | cons c cs ih =>
      intro st m
      exact le_trans (hstep c.now c.model c.status c.body st m) (ih _ m)
  · intro now model status body st h43 hle
    have h404 : ¬(status = some 404) := by rcases h43 with rfl | rfl <;> decide
    simp only [_mark_model_unavailable, if_neg h404, if_pos h43,
      if_neg (not_lt.mpr hle)]

/-- Witness for `cooldown_monotonic` (third conjunct): a computed cooldown end
of `now + max(0, 30)` does not overwrite an existing cooldown end of 3600. -/
theorem cooldown_monotonic_witness :
    ((some 429 : Option Int) = some 403 ∨ (some 429 : Option Int) = some 429) ∧
    _mark_model_unavailable 0 "gemini-2.0-flash" (some 429) []
        ⟨fun _ => 3600, fun _ => false⟩ = ⟨fun _ => 3600, fun _ => false⟩ :=
  ⟨Or.inr rfl,
   cooldown_monotonic.2.2 0 "gemini-2.0-flash" (some 429) [] ⟨fun _ => 3600, fun _ => false⟩
     (Or.inr rfl)
     (by rw [show _extract_retry_after_seconds [] = 0 from rfl,
           show cooldownFloor [] = 30 from rfl]
         norm_num)⟩

/-- C3 (amended): on status 403/429, the model's cooldown end becomes
`max(existing, now + max(hinted, floor))` — the computed value only when it
exceeds the existing entry (see the accompanying counterexample for the frozen
claim's unconditional "is set to now + max(hinted, floor)"); other models and
the permanent set are untouched; any status outside {403, 429, 404} leaves the
registry unchanged. -/
theorem mark_unavailable_cooldown (now : ℚ) (model : String) (status : Option Int)
    (body : List Char) (st : ModelRegistry) :
    ((status = some 403 ∨ status = some 429) →
      (_mark_model_unavailable now model status body st).skipUntil model
        = max (st.skipUntil model)
            (now + max (_extract_retry_after_seconds body) (cooldownFloor body)) ∧
      (∀ m, m ≠ model →
        (_mark_model_unavailable now model status body st).skipUntil m = st.skipUntil m) ∧
      (∀ m, (_mark_model_unavailable now model status body st).permanentlyUnavailable m
        = st.permanentlyUnavailable m)) ∧
    (status ≠ some 404 → ¬(status = some 403 ∨ status = some 429) →
      _mark_model_unavailable now model status body st = st) := by
  constructor
  · intro h43
    have h404 : ¬(status = some 404) := by rcases h43 with rfl | rfl <;> decide
    refine ⟨?_, ?_, ?_⟩
    · simp only [_mark_model_unavailable, if_neg h404, if_pos h43]
      by_cases hlt : st.skipUntil model
          < now + max (_extract_retry_after_seconds body) (cooldownFloor body)
      · rw [if_pos hlt]
        show (if model = model then _ else _) = _
        rw [if_pos rfl]
        exact (max_eq_right (le_of_lt hlt)).symm
      · rw [if_neg hlt]
        exact (max_eq_left (not_lt.mp hlt)).symm
    · intro m hm
      simp only [_mark_model_unavailable, if_neg h404, if_pos h43]
      by_cases hlt : st.skipUntil model
          < now + max (_extract_retry_after_seconds body) (cooldownFloor body)
      · rw [if_pos hlt]
        show (if m = model then _ else st.skipUntil m) = st.skipUntil m
        rw [if_neg hm]
      · rw [if_neg hlt]
    · intro m
      simp only [_mark_model_unavailable, if_neg h404, if_pos h43]
      by_cases hlt : st.skipUntil model
          < now + max (_extract_retry_after_seconds body) (cooldownFloor body)
      · rw [if_pos hlt]
      · rw [if_neg hlt]
  · intro h404 h43
    simp only [_mark_model_unavailable, if_neg h404, if_neg h43]

/-- Witness for `mark_unavailable_cooldown` at a concrete 403 call on a fresh
registry. -/
theorem mark_unavailable_cooldown_witness :
    ((some 403 : Option Int) = some 403 ∨ (some 403 : Option Int) = some 429) ∧
    ((_mark_model_unavailable 5 "gemini-2.5-pro" (some 403) "quota".data
        ⟨fun _ => 0, fun _ => false⟩).skipUntil "gemini-2.5-pro"
      = max ((0 : ℚ))
          (5 + max (_extract_retry_after_seconds "quota".data)
            (cooldownFloor "quota".data))) :=
  ⟨Or.inl rfl,
   ((mark_unavailable_cooldown 5 "gemini-2.5-pro" (some 403) "quota".data
       ⟨fun _ => 0, fun _ => false⟩).1 (Or.inl rfl)).1⟩

/-- C3 counterexample: a 429 call whose computed cooldown end
`now + max(hinted, floor) = 30` meets an existing cooldown end of 10000; the
cooldown end stays 10000 and is *not* set to `now + max(hinted, floor)`. -/
theorem mark_cooldown_not_set_cex :
    (_mark_model_unavailable 0 "gemini-1.5-pro" (some 429) []
        ⟨fun _ => 10000, fun _ => false⟩).skipUntil "gemini-1.5-pro" = 10000 ∧
    (10000 : ℚ) ≠ 0 + max (_extract_retry_after_seconds []) (cooldownFloor []) := by
  constructor
  · simp only [_mark_model_unavailable]
    split_ifs with h1 h2 h3
    · exact absurd h1 (by decide)
    · exfalso
      rw [show _extract_retry_after_seconds [] = 0 from rfl,
        show cooldownFloor [] = 30 from rfl] at h3
      have h3' : (10000 : ℚ) < 0 + max 0 30 := h3
      norm_num at h3'
    · rfl
    · exact absurd (Or.inr trivial) h2
  · rw [show _extract_retry_after_seconds [] = 0 from rfl,
      show cooldownFloor [] = 30 from rfl]
    norm_num

/-- C5: a 404 mark puts the model in the permanent set: its skip reason is
"permanent_unavailable" at every later time, no cooldown timer is touched by
the call, the reason survives any further sequence of `markUnavailable` calls
in the same process, and the orchestrator's model loop never selects the model
again. -/
theorem mark404_permanent (st : ModelRegistry) (now0 : ℚ) (model : String)
    (body : List Char) :
    (∀ t : ℚ, _model_skip_reason t (_mark_model_unavailable now0 model (some 404) body st)
        model = SkipReason.permanentUnavailable) ∧
    (∀ m, (_mark_model_unavailable now0 model (some 404) body st).skipUntil m
      = st.skipUntil m) ∧
    (∀ (calls : List MarkCall) (t : ℚ),
      _model_skip_reason t
          (applyMarks calls (_mark_model_unavailable now0 model (some 404) body st)) model
        = SkipReason.permanentUnavailable) ∧
    (∀ (calls : List MarkCall) (t : ℚ) (models : List String),
      model ∉ chatEligibleModels t
        (applyMarks calls (_mark_model_unavailable now0 model (some 404) body st)) models) := by
  have hperm : (_mark_model_unavailable now0 model (some 404) body st).permanentlyUnavailable
      model = true := by
    simp only [_mark_model_unavailable, if_pos rfl]
    show (if model = model then true else _) = true
    rw [if_pos rfl]
  have hmono : ∀ (c : MarkCall) (s : ModelRegistry), s.permanentlyUnavailable model = true →
      (_mark_model_unavailable c.now c.model c.status c.body s).permanentlyUnavailable model
        = true := by
    intro c s hs
    simp only [_mark_model_unavailable]
    split_ifs with h1 h2 h3
    · show (if model = c.model then true else s.permanentlyUnavailable model) = true
      by_cases hm : model = c.model
      · rw [if_pos hm]
      · rw [if_neg hm]; exact hs
    · exact hs
    · exact hs
    · exact hs
  have hall : ∀ (calls : List MarkCall) (s : ModelRegistry),
      s.permanentlyUnavailable model = true →
      (applyMarks calls s).permanentlyUnavailable model = true := by
    intro calls
    induction calls with
    | nil => intro s hs; exact hs
    | cons c cs ih => intro s hs; exact ih _ (hmono c s hs)
  have hreason : ∀ (s : ModelRegistry) (t : ℚ), s.permanentlyUnavailable model = true →
      _model_skip_reason t s model = SkipReason.permanentUnavailable := by
    intro s t hs
    simp only [_model_skip_reason, hs, if_true]
  refine ⟨fun t => hreason _ t hperm, ?_, fun calls t => hreason _ t (hall calls _ hperm), ?_⟩
  · intro m
    simp only [_mark_model_unavailable, eq_self_iff_true, if_true]
  · intro calls t models hmem
    have hdec := (List.mem_filter.mp hmem).2
    rw [hreason _ t (hall calls _ hperm)] at hdec
    exact absurd hdec (by decide)

/-! ## Tolerant Response Parser (`_parse_mode_answer` and its helpers) -/

/-- Python value produced by `json.loads` for the JSON fragment this module
handles (`NaN`/`Infinity` extensions are out of scope). -/
inductive PyJson where
  | null : PyJson
  | bool : Bool → PyJson
  | num : ℚ → PyJson
  | str : List Char → PyJson
  | arr : List PyJson → PyJson
  | obj : List (List Char × PyJson) → PyJson

/-- JSON structural whitespace. -/
def jsonWs (c : Char) : Bool :=
  c = ' ' ∨ c = '\t' ∨ c = '\n' ∨ c = '\r'

/-- Value of a hexadecimal digit. -/
def hexVal (c : Char) : Option Nat :=
  if '0' ≤ c ∧ c ≤ '9' then some (c.toNat - 48)
  else if 'a' ≤ c ∧ c ≤ 'f' then some (c.toNat - 87)
  else if 'A' ≤ c ∧ c ≤ 'F' then some (c.toNat - 55)
  else none

/-- JSON string body (after the opening quote): returns the decoded content
and the text after the closing quote.  Strict mode: raw control characters
and unknown escapes are rejected.  Fuel ≥ length. -/
def parseJsonStrGo : Nat → List Char → Option (List Char × List Char)
  | 0, _ => none
  | _ + 1, [] => none
  | fuel + 1, c :: cs =>
    if c = Char.ofNat 34 then some ([], cs)
    else if c = '\\' then
      match cs with
      | [] => none
      | e :: cs' =>
        if e = Char.ofNat 34 then
          (parseJsonStrGo fuel cs').map fun r => (Char.ofNat 34 :: r.1, r.2)
        else if e = '\\' then (parseJsonStrGo fuel cs').map fun r => ('\\' :: r.1, r.2)
        else if e = '/' then (parseJsonStrGo fuel cs').map fun r => ('/' :: r.1, r.2)
        else if e = 'b' then
          (parseJsonStrGo fuel cs').map fun r => (Char.ofNat 8 :: r.1, r.2)
        else if e = 'f' then
          (parseJsonStrGo fuel cs').map fun r => (Char.ofNat 12 :: r.1, r.2)
        else if e = 'n' then (parseJsonStrGo fuel cs').map fun r => ('\n' :: r.1, r.2)
        else if e = 'r' then (parseJsonStrGo fuel cs').map fun r => ('\r' :: r.1, r.2)
        else if e = 't' then (parseJsonStrGo fuel cs').map fun r => ('\t' :: r.1, r.2)
        else if e = 'u' then
          match cs' with
          | h1 :: h2 :: h3 :: h4 :: cs'' =>
            match hexVal h1, hexVal h2, hexVal h3, hexVal h4 with
            | some a, some b, some c2, some d =>
              (parseJsonStrGo fuel cs'').map fun r =>
                (Char.ofNat (((a * 16 + b) * 16 + c2) * 16 + d) :: r.1, r.2)
            | _, _, _, _ => none
          | _ => none
        else none
    else if c.toNat < 32 then none
    else (parseJsonStrGo fuel cs).map fun r => (c :: r.1, r.2)

/-- JSON number at the head of `s` (`-? int frac? exp?`, no leading zeros). -/
def parseJsonNumber (s : List Char) : Option (ℚ × List Char) :=
  let negAndRest : Bool × List Char :=
    match s with
    | c :: cs => if c = '-' then (true, cs) else (false, s)
    | [] => (false, [])
  match negAndRest.2 with
  | [] => none
  | c :: cs =>
    if ¬(c.isDigit = true) then none
    else
      let intDs := if c = '0' then [c] else (c :: cs).takeWhile Char.isDigit
      let r1 := (c :: cs).drop intDs.length
      let fracAndRest : List Char × List Char :=
        match r1 with
        | d :: r1' =>
          if d = '.' then
            let fs := r1'.takeWhile Char.isDigit
            if fs = [] then ([], r1) else (fs, r1'.drop fs.length)
          else ([], r1)
        | [] => ([], r1)
      let expAndRest : Option ℤ × List Char :=
        match fracAndRest.2 with
        | e :: r2' =>
          if e = 'e' ∨ e = 'E' then
            let signAndRest : ℤ × List Char :=
              match r2' with
              | sgn :: r2'' =>
                if sgn = '+' then (1, r2'') else if sgn = '-' then (-1, r2'') else (1, r2')
              | [] => (1, r2')
            let es := signAndRest.2.takeWhile Char.isDigit
            if es = [] then (none, fracAndRest.2)
            else (some (signAndRest.1 * (natOfDigits es : ℤ)), signAndRest.2.drop es.length)
          else (none, fracAndRest.2)
        | [] => (none, fracAndRest.2)
      let base : ℚ := (natOfDigits intDs : ℚ)
        + (natOfDigits fracAndRest.1 : ℚ) / (10 : ℚ) ^ fracAndRest.1.length
      let withExp : ℚ :=
        match expAndRest.1 with
        | some e => base * (10 : ℚ) ^ e
        | none => base
      some ((if negAndRest.1 then -withExp else withExp), expAndRest.2)

mutual

/-- A JSON value (fuel-indexed recursive descent; leading whitespace allowed). -/
def parseJsonVal : Nat → List Char → Option (PyJson × List Char)
  | 0, _ => none
  | fuel + 1, s =>
    let s1 := s.dropWhile jsonWs
    match s1 with
    | [] => none
    | c :: cs =>
      if c = Char.ofNat 34 then
        (parseJsonStrGo (cs.length + 1) cs).map fun r => (PyJson.str r.1, r.2)
      else if c = Char.ofNat 123 then parseJsonObjBody fuel cs
      else if c = '[' then parseJsonArrBody fuel cs
      else if "true".data <+: s1 then some (PyJson.bool true, s1.drop 4)
      else if "false".data <+: s1 then some (PyJson.bool false, s1.drop 5)
      else if "null".data <+: s1 then some (PyJson.null, s1.drop 4)
      else (parseJsonNumber s1).map fun r => (PyJson.num r.1, r.2)

/-- Object body, after the opening brace. -/
def parseJsonObjBody : Nat → List Char → Option (PyJson × List Char)
  | 0, _ => none
  | fuel + 1, s =>
    let s1 := s.dropWhile jsonWs
    match s1 with
    | [] => none
    | c :: cs =>
      if c = Char.ofNat 125 then some (PyJson.obj [], cs) else parseJsonMembers fuel s1 []

/-- Members of an object (at a key position). -/
def parseJsonMembers : Nat → List Char → List (List Char × PyJson) →
    Option (PyJson × List Char)
  | 0, _, _ => none
  | fuel + 1, s, acc =>
    match s.dropWhile jsonWs with
    | [] => none
    | c :: cs =>
      if c = Char.ofNat 34 then
        match parseJsonStrGo (cs.length + 1) cs with
        | none => none
        | some (key, r1) =>
          match r1.dropWhile jsonWs with
          | ':' :: r3 =>
            match parseJsonVal fuel r3 with
            | none => none
            | some (v, r4) =>
              match r4.dropWhile jsonWs with
              | d :: r6 =>
                if d = ',' then parseJsonMembers fuel r6 (acc ++ [(key, v)])
                else if d = Char.ofNat 125 then some (PyJson.obj (acc ++ [(key, v)]), r6)
                else none
              | [] => none
          | _ => none
      else none

/-- Array body, after the opening bracket. -/
def parseJsonArrBody : Nat → List Char → Option (PyJson × List Char)
  | 0, _ => none
  | fuel + 1, s =>
    match s.dropWhile jsonWs with
    | [] => none
    | c :: cs => if c = ']' then some (PyJson.arr [], cs) else parseJsonElems fuel s []

/-- Elements of an array (at a value position). -/
def parseJsonElems : Nat → List Char → List PyJson → Option (PyJson × List Char)
  | 0, _, _ => none
  | fuel + 1, s, acc =>
    match parseJsonVal fuel s with
    | none => none
    | some (v, r1) =>
      match r1.dropWhile jsonWs with
      | c :: r3 =>
        if c = ',' then parseJsonElems fuel r3 (acc ++ [v])
        else if c = ']' then some (PyJson.arr (acc ++ [v]), r3)
        else none
      | [] => none

end

/-- `json.loads`: parse one JSON value and require only whitespace to remain. -/
def jsonLoads (s : List Char) : Option PyJson :=
  match parseJsonVal (4 * s.length + 16) s with
  | some (v, rest) => if rest.dropWhile jsonWs = [] then some v else none
  | none => none

/-- Lookup in the dict produced by `json.loads` for an object: with duplicate
keys, the last occurrence wins. -/
def lookupJson (o : List (List Char × PyJson)) (k : List Char) : Option PyJson :=
  (o.reverse.find? fun p => decide (p.1 = k)).map Prod.snd

/-- Python `str()` of a decoded JSON value.  String values are returned as-is
(the only case the parsing contract exercises); the scalar/container cases
abstract Python's `repr`-style rendering, whose exact text the parser never
inspects beyond emptiness. -/
def pyStr : PyJson → List Char
  | PyJson.str s => s
  | PyJson.null => "None".data
  | PyJson.bool true => "True".data
  | PyJson.bool false => "False".data
  | PyJson.num q => (toString q.num).data
  | PyJson.arr _ => "[...]".data
  | PyJson.obj _ => "\x7b...\x7d".data

/-- `_scan_quoted_value` (ai_engine.py:335-351) from a given position, with the
escape flag: collects characters until an unescaped closing quote, dropping
the backslashes themselves; `none` when the quote is unterminated (the code's
`(None, -1)`). -/
def scanQuotedGo (q : Char) : List Char → Bool → Option (List Char)
  | [], _ => none
  | c :: cs, escaped =>
    if escaped then (scanQuotedGo q cs false).map fun r => c :: r
    else if c = '\\' then scanQuotedGo q cs true
    else if c = q then some []
    else (scanQuotedGo q cs false).map fun r => c :: r

/-- `_scan_quoted_value` started unescaped. -/
def _scan_quoted_value (q : Char) (s : List Char) : Option (List Char) :=
  scanQuotedGo q s false

/-- Python `str.replace(pat, repl)` (leftmost, non-overlapping; `pat ≠ []`).
Fuel ≥ length. -/
def pyReplaceGo (pat repl : List Char) : Nat → List Char → List Char
  | 0, s => s
  | _ + 1, [] => []
  | fuel + 1, c :: cs =>
    if pat ≠ [] ∧ pat <+: (c :: cs) then
      repl ++ pyReplaceGo pat repl fuel ((c :: cs).drop pat.length)
    else c :: pyReplaceGo pat repl fuel cs

def pyReplace (s pat repl : List Char) : List Char := pyReplaceGo pat repl s.length s

/-- `_unescape_fallback_value` (ai_engine.py:354-360): rewrite the textual
escapes that survive the scanner, then strip. -/
def _unescape_fallback_value (q : Char) (v : List Char) : List Char :=
  pyStrip
    (if q = '\'' then
      pyReplace (pyReplace (pyReplace (pyReplace (pyReplace (pyReplace v
        ['\\', 'n'] ['\n']) ['\\', 't'] ['\t']) ['\\', 'r'] ['\r'])
        ['\\', Char.ofNat 34] [Char.ofNat 34]) ['\\', '\\'] ['\\']) ['\\', '\''] ['\'']
    else
      pyReplace (pyReplace (pyReplace (pyReplace (pyReplace v
        ['\\', 'n'] ['\n']) ['\\', 't'] ['\t']) ['\\', 'r'] ['\r'])
        ['\\', Char.ofNat 34] [Char.ofNat 34]) ['\\', '\\'] ['\\'])

/-- Index after skipping `str.isspace` characters from `start`
(the `while value_start < len(text) and text[value_start].isspace()` loop). -/
def skipSpacesGo : List Char → Nat → Nat
  | [], i => i
  | c :: cs, i => if isPySpace c then skipSpacesGo cs (i + 1) else i

def skipSpaces (text : List Char) (start : Nat) : Nat :=
  skipSpacesGo (text.drop start) start

/-- The `while True` search loop of `_extract_object_like_field`
(ai_engine.py:366-389) for one quote style; `none` both for `break` and for
an exhausted search.  Fuel > number of iterations (`searchPos` strictly
grows). -/
def extractFieldLoop (text pat : List Char) : Nat → Nat → Option (List Char)
  | 0, _ => none
  | fuel + 1, searchPos =>
    match strFind text pat searchPos with
    | none => none
    | some keyIdx =>
      match strFind text [':'] (keyIdx + pat.length) with
      | none => none
      | some colonIdx =>
        let valueStart := skipSpaces text (colonIdx + 1)
        match (text.drop valueStart).head? with
        | none => none
        | some first =>
          if first = Char.ofNat 34 ∨ first = '\'' then
            match _scan_quoted_value first (text.drop (valueStart + 1)) with
            | some rawv => some (_unescape_fallback_value first rawv)
            | none => extractFieldLoop text pat fuel (keyIdx + pat.length)
          else
            some (pyStrip ((text.drop valueStart).takeWhile
              fun ch => decide (¬(ch = ',' ∨ ch = Char.ofNat 125))))

/-- `_extract_object_like_field` (ai_engine.py:363-390): try the
double-quoted key pattern over the whole text, then the single-quoted one. -/
def _extract_object_like_field (text field : List Char) : Option (List Char) :=
  match extractFieldLoop text (Char.ofNat 34 :: field ++ [Char.ofNat 34]) (text.length + 2) 0 with
  | some v => some v
  | none => extractFieldLoop text ('\'' :: field ++ ['\'']) (text.length + 2) 0

/-- Python `text.rfind(c)` for a single character (with `none` for `-1`). -/
def strRFind (text : List Char) (c : Char) : Option Nat :=
  (findSubGo [c] text.reverse 0).map fun i => text.length - 1 - i

/-- The cleaned text of `_parse_mode_answer` (ai_engine.py:706-710): strip,
then if the text starts with a code fence strip backticks from both ends and
drop a leading case-insensitive `json` tag. -/
def cleanedOf (raw : List Char) : List Char :=
  let c0 := pyStrip raw
  if "```".data <+: c0 then
    let c1 := ((c0.dropWhile fun c => c = Char.ofNat 96).reverse.dropWhile
      fun c => c = Char.ofNat 96).reverse
    if "json".data <+: c1.map Char.toLower then pyStrip (c1.drop 4) else c1
  else c0

/-- The strict-decoding candidate of `_parse_mode_answer` (ai_engine.py:712-716):
the outermost `{...}` span when one exists, else the whole cleaned text. -/
def candidateOf (raw : List Char) : List Char :=
  let cleaned := cleanedOf raw
  match strFind cleaned [Char.ofNat 123] 0, strRFind cleaned (Char.ofNat 125) with
  | some s, some e => if s < e then (cleaned.drop s).take (e + 1 - s) else cleaned
  | _, _ => cleaned

/-- The failure modes of `_parse_mode_answer`: empty text fallback
("Gemini returned invalid JSON and empty text answer."), empty answer inside
valid JSON ("Gemini returned empty answer in JSON."), and the `AttributeError`
escaping when the decoded JSON value is not an object. -/
inductive ParseFail where
  | emptyTextAnswer : ParseFail
  | emptyJsonAnswer : ParseFail
  | notDict : ParseFail
deriving DecidableEq

/-- `VALID_QUERY_MODES` (ai_engine.py:24). -/
def VALID_QUERY_MODES : List (List Char) := ["smalltalk".data, "official_info".data]

/-- `_parse_mode_answer` (ai_engine.py:705-741): strict JSON decode of the
candidate span; on decode failure, the hand-rolled field scanner, then the
verbatim-text fallback; on decode success, the mode/answer extraction with
`official_info` defaulting.  `Except.error` marks the paths that raise. -/
def _parse_mode_answer (raw : List Char) : Except ParseFail (List Char × List Char) :=
  let cleaned := cleanedOf raw
  match jsonLoads (candidateOf raw) with
  | none =>
    let modeGuess := _extract_object_like_field cleaned "mode".data
    let answerGuess := _extract_object_like_field cleaned "answer".data
    match answerGuess with
    | some a =>
      if a ≠ [] then
        let m1 := match modeGuess with
          | some mg => if mg = [] then "official_info".data else mg
          | none => "official_info".data
        let mode := (pyStrip m1).map Char.toLower
        Except.ok ((if mode ∈ VALID_QUERY_MODES then mode else "official_info".data), a)
      else
        let fb := pyStrip cleaned
        if fb = [] then Except.error ParseFail.emptyTextAnswer
        else Except.ok ("official_info".data, fb)
    | none =>
      let fb := pyStrip cleaned
      if fb = [] then Except.error ParseFail.emptyTextAnswer
      else Except.ok ("official_info".data, fb)
  | some data =>
    match data with
    | PyJson.obj o =>
      let mode := (pyStrip (pyStr ((lookupJson o "mode".data).getD
        (PyJson.str "official_info".data)))).map Char.toLower
      let answer := pyStrip (pyStr ((lookupJson o "answer".data).getD (PyJson.str [])))
      if answer = [] then Except.error ParseFail.emptyJsonAnswer
      else Except.ok ((if mode ∈ VALID_QUERY_MODES then mode else "official_info".data), answer)
    | _ => Except.error ParseFail.notDict

/-- Whether a parse attempt returned a (mode, answer) pair. -/
def exceptOk {ε α : Type} : Except ε α → Bool
  | Except.ok _ => true
  | Except.error _ => false

/-! ### Recovery-scanner lemmas (C6) -/

theorem findSubGo_at_head (pat s : List Char) (i : Nat) (h : pat <+: s) :
    findSubGo pat s i = some i := by
  cases s with
  | nil =>
    have : pat = [] := List.prefix_nil.mp h
    simp [findSubGo, this]
  | cons c cs =>
    simp [findSubGo, h]

theorem findSubGo_skip (q : Char) (pat' : List Char) :
    ∀ (pre rest : List Char) (i : Nat), q ∉ pre →
      findSubGo (q :: pat') (pre ++ rest) i = findSubGo (q :: pat') rest (i + pre.length) := by
  intro pre
  induction pre with
  | nil => intro rest i _; simp
  | cons c pre ih =>
    intro rest i hq
    have hqc : ¬((q :: pat') <+: (c :: (pre ++ rest))) := by
      rintro ⟨t, ht⟩
      rw [List.cons_append] at ht
      injection ht with h1 _
      exact hq (h1 ▸ List.mem_cons_self c pre)
    rw [List.cons_append]
    show findSubGo (q :: pat') (c :: (pre ++ rest)) i = _
    unfold findSubGo
    rw [if_neg hqc, ih rest (i + 1) (fun hm => hq (List.mem_cons_of_mem c hm))]
    simp only [List.length_cons]
    have harith : i + 1 + pre.length = i + (pre.length + 1) := by omega
    rw [harith]
    cases rest with
    | nil => rfl
    | cons d ds => rfl

theorem drop_cons_after {l r : List Char} {n : Nat} {c : Char} (h : l.drop n = c :: r) :
    l.drop (n + 1) = r := by
  rw [← List.drop_drop 1 n l, h]
  rfl

theorem drop_append_after {l r pre : List Char} {n : Nat} (h : l.drop n = pre ++ r) :
    l.drop (n + pre.length) = r := by
  rw [← List.drop_drop pre.length n l, h, List.drop_left]

theorem skipSpacesGo_run (d : Char) (hd : isPySpace d = false) (rest : List Char) :
    ∀ ws : List Char, (∀ c ∈ ws, isPySpace c = true) →
      ∀ i : Nat, skipSpacesGo (ws ++ d :: rest) i = i + ws.length := by
  intro ws
  induction ws with
  | nil => intro _ i; simp [skipSpacesGo, hd]
  | cons c cs ih =>
    intro hws i
    rw [List.cons_append]
    show skipSpacesGo (c :: (cs ++ d :: rest)) i = i + (c :: cs).length
    unfold skipSpacesGo
    rw [if_pos (hws c (List.mem_cons_self c cs)),
      ih (fun x hx => hws x (List.mem_cons_of_mem c hx)) (i + 1)]
    simp only [List.length_cons]
    omega

theorem scanQuotedGo_closes (q : Char) (hq0 : q ≠ '\\') (v suf : List Char)
    (hv : ∀ c ∈ v, c ≠ q ∧ c ≠ '\\') :
    scanQuotedGo q (v ++ q :: suf) false = some v := by
  induction v with
  | nil =>
    show scanQuotedGo q (q :: suf) false = some []
    unfold scanQuotedGo
    rw [if_neg (by simp), if_neg hq0, if_pos rfl]
  | cons c cs ih =>
    obtain ⟨hq, hb⟩ := hv c (List.mem_cons_self c cs)
    rw [List.cons_append]
    show scanQuotedGo q (c :: (cs ++ q :: suf)) false = _
    unfold scanQuotedGo
    rw [if_neg (by simp), if_neg hb, if_neg hq,
      ih (fun x hx => hv x (List.mem_cons_of_mem c hx))]
    rfl

theorem pyReplaceGo_no_head (pat' repl : List Char) :
    ∀ (fuel : Nat) (s : List Char), '\\' ∉ s →
      pyReplaceGo ('\\' :: pat') repl fuel s = s := by
  intro fuel
  induction fuel with
  | zero => intro s _; rfl
  | succ fuel ih =>
    intro s hs
    cases s with
    | nil => rfl
    | cons c cs =>
      have hnc : ¬(('\\' :: pat') ≠ [] ∧ ('\\' :: pat') <+: (c :: cs)) := by
        rintro ⟨-, ⟨t, ht⟩⟩
        rw [List.cons_append] at ht
        injection ht with h1 _
        exact hs (h1 ▸ List.mem_cons_self _ _)
      show pyReplaceGo ('\\' :: pat') repl (fuel + 1) (c :: cs) = c :: cs
      unfold pyReplaceGo
      rw [if_neg hnc, ih cs (fun hm => hs (List.mem_cons_of_mem c hm))]

theorem unescape_no_backslash (v : List Char) (hv : '\\' ∉ v) :
    _unescape_fallback_value (Char.ofNat 34) v = pyStrip v := by
  unfold _unescape_fallback_value
  rw [if_neg (by decide : ¬(Char.ofNat 34 = '\''))]
  unfold pyReplace
  rw [pyReplaceGo_no_head _ _ _ _ hv, pyReplaceGo_no_head _ _ _ _ hv,
    pyReplaceGo_no_head _ _ _ _ hv, pyReplaceGo_no_head _ _ _ _ hv,
    pyReplaceGo_no_head _ _ _ _ hv]

/-- The recovery scanner on a well-formed quoted `field` occurrence: when the
first double quote of the text opens the key, the value is double-quoted with
no embedded quote or backslash, and only whitespace separates `":"` from the
value, the scanner returns the quoted value stripped of surrounding
whitespace. -/
theorem extract_field_structured (field pre ws v suf : List Char)
    (hpre : Char.ofNat 34 ∉ pre)
    (hws : ∀ c ∈ ws, isPySpace c = true)
    (hv : ∀ c ∈ v, c ≠ Char.ofNat 34 ∧ c ≠ '\\') :
    _extract_object_like_field
      (pre ++ ((Char.ofNat 34 :: field ++ [Char.ofNat 34])
        ++ ':' :: (ws ++ Char.ofNat 34 :: (v ++ Char.ofNat 34 :: suf)))) field
      = some (pyStrip v) := by
  have hvb : '\\' ∉ v := fun hm => (hv _ hm).2 rfl
  set key : List Char := Char.ofNat 34 :: field ++ [Char.ofNat 34] with hkey
  set rest2 : List Char := ws ++ Char.ofNat 34 :: (v ++ Char.ofNat 34 :: suf) with hrest2
  set T : List Char := pre ++ (key ++ ':' :: rest2) with hT
  have h1 : strFind T key 0 = some pre.length := by
    show findSubGo key (T.drop 0) 0 = some pre.length
    rw [List.drop_zero, hT, hkey]
    simp only [List.cons_append, List.append_assoc, List.singleton_append]
    rw [findSubGo_skip (Char.ofNat 34) (field ++ [Char.ofNat 34]) pre _ 0 hpre]
    rw [findSubGo_at_head _ _ _ ⟨':' :: rest2, by simp⟩, Nat.zero_add]
  have h2 : T.drop pre.length = key ++ ':' :: rest2 := by
    rw [hT]; exact List.drop_left pre _
  have h3 : T.drop (pre.length + key.length) = ':' :: rest2 := drop_append_after h2
  have h4 : strFind T [':'] (pre.length + key.length) = some (pre.length + key.length) := by
    show findSubGo [':'] (T.drop (pre.length + key.length)) _ = _
    rw [h3]
    exact findSubGo_at_head _ _ _ ⟨rest2, rfl⟩
  have h5 : T.drop (pre.length + key.length + 1) = rest2 := drop_cons_after h3
  have h5' : T.drop (pre.length + key.length + 1)
      = ws ++ Char.ofNat 34 :: (v ++ Char.ofNat 34 :: suf) := by rw [h5]
  have h6 : skipSpaces T (pre.length + key.length + 1)
      = pre.length + key.length + 1 + ws.length := by
    show skipSpacesGo (T.drop (pre.length + key.length + 1)) _ = _
    rw [h5']
    exact skipSpacesGo_run (Char.ofNat 34) (by decide) _ ws hws _
  have h7 : T.drop (pre.length + key.length + 1 + ws.length)
      = Char.ofNat 34 :: (v ++ Char.ofNat 34 :: suf) := drop_append_after h5'
  have h8 : T.drop (pre.length + key.length + 1 + ws.length + 1)
      = v ++ Char.ofNat 34 :: suf := drop_cons_after h7
  have h9 : _scan_quoted_value (Char.ofNat 34)
      (T.drop (pre.length + key.length + 1 + ws.length + 1)) = some v := by
    rw [h8]
    exact scanQuotedGo_closes (Char.ofNat 34) (by decide) v suf hv
  have hloop : extractFieldLoop T key (T.length + 2) 0
      = some (_unescape_fallback_value (Char.ofNat 34) v) := by
    show extractFieldLoop T key (T.length + 1 + 1) 0 = _
    unfold extractFieldLoop
    rw [h1]
    simp only [h4, h6, h7, h9, List.head?_cons]
    rw [if_pos (Or.inl trivial)]
  show _extract_object_like_field T field = some (pyStrip v)
  unfold _extract_object_like_field
  rw [← hkey, hloop, unescape_no_backslash v hvb]

/-- C2 (amended): the tolerant parser returns a (mode, answer) pair for every
raw text whose cleaned, trimmed form is non-empty *and* whose extracted JSON
candidate fails strict decoding.  (When strict decoding succeeds, the parser
additionally raises on an empty or missing `answer` — see the accompanying
counterexample — or on a non-object value.) -/
theorem parse_ok_when_decode_fails (raw : List Char)
    (h1 : pyStrip (cleanedOf raw) ≠ [])
    (h2 : jsonLoads (candidateOf raw) = none) :
    exceptOk (_parse_mode_answer raw) = true := by
  unfold _parse_mode_answer
  simp only [h2]
  cases hag : _extract_object_like_field (cleanedOf raw) "answer".data with
  | none =>
    simp only [hag]
    rw [if_neg h1]
    rfl
  | some a =>
    simp only [hag]
    by_cases ha : a = []
    · rw [if_neg (by simp [ha] : ¬(a ≠ [])), if_neg h1]
      rfl
    · rw [if_pos ha]
      rfl

/-- Witness for `parse_ok_when_decode_fails` on plain non-JSON text. -/
theorem parse_ok_when_decode_fails_witness :
    pyStrip (cleanedOf "hello".data) ≠ [] ∧
    exceptOk (_parse_mode_answer "hello".data) = true :=
  ⟨by decide, parse_ok_when_decode_fails "hello".data (by decide) (by rfl)⟩

/-- C2 counterexample: `"{}"` has a non-empty cleaned form, but the parser
raises ("Gemini returned empty answer in JSON") instead of returning a pair,
because strict decoding succeeds with an object whose `answer` is missing. -/
theorem parse_raises_on_empty_json_answer_cex :
    pyStrip (cleanedOf "\x7b\x7d".data) ≠ [] ∧
    _parse_mode_answer "\x7b\x7d".data = Except.error ParseFail.emptyJsonAnswer :=
  ⟨by decide, by rfl⟩

/-- C6 (amended): on a quasi-structured text whose first double quote opens an
`"answer"` key with a well-formed double-quoted value, the recovery scanner
returns that value after unescaping *and trimming of surrounding whitespace*
(the accompanying counterexample shows the trimming, absent from the frozen
claim); whenever strict JSON decoding of the candidate succeeds with an object
whose trimmed answer is non-empty, parsing succeeds too; and the containment
is strict: `"hello"` fails strict decoding yet parses. -/
theorem recovery_scanner_superset (pre ws v suf raw : List Char)
    (o : List (List Char × PyJson))
    (hpre : Char.ofNat 34 ∉ pre)
    (hws : ∀ c ∈ ws, isPySpace c = true)
    (hv : ∀ c ∈ v, c ≠ Char.ofNat 34 ∧ c ≠ '\\')
    (hJ : jsonLoads (candidateOf raw) = some (PyJson.obj o))
    (hA : pyStrip (pyStr ((lookupJson o "answer".data).getD (PyJson.str []))) ≠ []) :
    _extract_object_like_field
      (pre ++ ((Char.ofNat 34 :: "answer".data ++ [Char.ofNat 34])
        ++ ':' :: (ws ++ Char.ofNat 34 :: (v ++ Char.ofNat 34 :: suf)))) "answer".data
      = some (pyStrip v) ∧
    exceptOk (_parse_mode_answer raw) = true ∧
    (exceptOk (_parse_mode_answer "hello".data) = true ∧
      jsonLoads (candidateOf "hello".data) = none) := by
  refine ⟨extract_field_structured "answer".data pre ws v suf hpre hws hv, ?_, by rfl, by rfl⟩
  unfold _parse_mode_answer
  simp only [hJ]
  rw [if_neg hA]
  rfl

/-- Witness for `recovery_scanner_superset` at concrete inputs. -/
theorem recovery_scanner_superset_witness :
    (_extract_object_like_field
      ("\x7b".data ++ ((Char.ofNat 34 :: "answer".data ++ [Char.ofNat 34])
        ++ ':' :: (" ".data ++ Char.ofNat 34 :: ("ok".data ++ Char.ofNat 34 :: []))))
      "answer".data = some (pyStrip "ok".data)) ∧
    exceptOk (_parse_mode_answer "\x7b\"answer\":\"hi\"\x7d".data) = true ∧
    (exceptOk (_parse_mode_answer "hello".data) = true ∧
      jsonLoads (candidateOf "hello".data) = none) :=
  recovery_scanner_superset "\x7b".data " ".data "ok".data [] "\x7b\"answer\":\"hi\"\x7d".data
    [("answer".data, PyJson.str "hi".data)] (by decide) (by decide) (by decide) (by rfl)
    (by decide)

/-- C6 counterexample: the malformed input `{"answer":" x "` (not decodable as
JSON) contains the quoted answer value `" x "`, but the recovery scanner
returns `"x"` — the value with its surrounding whitespace trimmed — not the
exact quoted value. -/
theorem recovery_scanner_trims_cex :
    jsonLoads "\x7b\"answer\":\" x \"".data = none ∧
    _extract_object_like_field "\x7b\"answer\":\" x \"".data "answer".data
      = some "x".data ∧
    "x".data ≠ " x ".data :=
  ⟨by rfl, by rfl, by decide⟩

/-! ## Grounding Source Extractor (`_extract_grounding_sources`, `_append_sources`) -/

/-- `MAX_VERIFIED_GROUNDING_SOURCES` (ai_engine.py:28). -/
def MAX_VERIFIED_GROUNDING_SOURCES : Nat := 8

/-- `MAX_RESPONSE_SOURCES` (ai_engine.py:29). -/
def MAX_RESPONSE_SOURCES : Nat := 5

/-- `re.sub(r"\s+", " ", title)`: every maximal whitespace run becomes one
space.  Fuel ≥ length. -/
def collapseWsRunsGo : Nat → List Char → List Char
  | 0, s => s
  | _ + 1, [] => []
  | fuel + 1, c :: cs =>
    if isPySpace c then ' ' :: collapseWsRunsGo fuel (cs.dropWhile isPySpace)
    else c :: collapseWsRunsGo fuel cs

def collapseWsRuns (s : List Char) : List Char := collapseWsRunsGo s.length s

/-- A citation chunk: `none` models a non-dict chunk, a missing/non-dict
`web` entry, or one whose data is unusable; `some (uri, title)` carries the
raw `web.uri` / `web.title` strings. -/
abbrev GroundChunk := Option (List Char × List Char)

/-- Loop state of `_extract_grounding_sources`: the accumulated sources, the
two `seen` sets, the per-call `validation_cache`, and — as instrumentation —
the trace of URLs actually passed to `_verify_working_url` (each cache miss). -/
structure ExtAcc where
  sources : List (List Char × List Char)
  seenInputUrls : List (List Char)
  seenUrls : List (List Char)
  validationCache : List (List Char × List Char)
  probes : List (List Char)

/-- `_verify_working_url_cached` (ai_engine.py:143-149), with the probe trace:
returns the result, the updated cache, and the updated trace. -/
def _verify_working_url_cached (verify : List Char → List Char) (url : List Char)
    (cache : List (List Char × List Char)) (probes : List (List Char)) :
    List Char × List (List Char × List Char) × List (List Char) :=
  match cache.find? fun p => decide (p.1 = url) with
  | some p => (p.2, cache, probes)
  | none => (verify url, cache ++ [(url, verify url)], probes ++ [url])

/-- The chunk loop of `_extract_grounding_sources` (ai_engine.py:490-511). -/
def extractGroundGo (verify : List Char → List Char) :
    List GroundChunk → ExtAcc → ExtAcc
  | [], acc => acc
  | chunk :: rest, acc =>
    if MAX_VERIFIED_GROUNDING_SOURCES ≤ acc.sources.length then acc
    else
      match chunk with
      | none => extractGroundGo verify rest acc
      | some (uriRaw, titleRaw) =>
        let url := pyStrip uriRaw
        if url = [] ∨ url ∈ acc.seenInputUrls then extractGroundGo verify rest acc
        else
          let acc1 := { acc with seenInputUrls := acc.seenInputUrls ++ [url] }
          let r := _verify_working_url_cached verify url acc1.validationCache acc1.probes
          let acc2 := { acc1 with validationCache := r.2.1, probes := r.2.2 }
          if r.1 = [] then extractGroundGo verify rest acc2
          else if r.1 ∈ acc2.seenUrls then extractGroundGo verify rest acc2
          else
            let t0 := pyStrip titleRaw
            let title := collapseWsRuns (if t0 = [] then url else t0)
            extractGroundGo verify rest
              { acc2 with seenUrls := acc2.seenUrls ++ [r.1],
                          sources := acc2.sources ++ [(title, r.1)] }

/-- `_extract_grounding_sources` (ai_engine.py:482-512), parameterized by the
link verifier. -/
def _extract_grounding_sources (verify : List Char → List Char)
    (chunks : List GroundChunk) : List (List Char × List Char) :=
  (extractGroundGo verify chunks ⟨[], [], [], [], []⟩).sources

/-- The verified resolved URL each usable chunk would contribute, in chunk
order (specification-side helper for the order property). -/
def groundingCandidates (verify : List Char → List Char)
    (chunks : List GroundChunk) : List (List Char) :=
  chunks.filterMap fun ch =>
    match ch with
    | none => none
    | some (uriRaw, _) =>
      let url := pyStrip uriRaw
      if url = [] then none
      else if verify url = [] then none else some (verify url)

/-- Whether a title is in whitespace-collapsed form: every whitespace
character is a single space not followed by further whitespace. -/
def wsCollapsed : List Char → Bool
  | [] => true
  | c :: cs =>
    if isPySpace c then
      (c = ' ' && (match cs with | d :: _ => !(isPySpace d) | [] => true)) && wsCollapsed cs
    else wsCollapsed cs

/-- The source lines rendered to the user by `_append_sources`
(ai_engine.py:699-701): one line per source, capped at
`MAX_RESPONSE_SOURCES`. -/
def renderedSourceLines (sources : List (List Char × List Char)) : List (List Char) :=
  (sources.take MAX_RESPONSE_SOURCES).map fun s => "- ".data ++ s.1 ++ ": ".data ++ s.2

/-- Join with newlines (`"\n".join(lines)`). -/
def joinNl : List (List Char) → List Char
  | [] => []
  | [x] => x
  | x :: xs => x ++ '\n' :: joinNl xs

/-- `_append_sources` (ai_engine.py:693-702). -/
def _append_sources (answer : List Char) (sources : List (List Char × List Char)) :
    List Char :=
  if sources = [] then answer
  else if containsSub answer "https://".data ∨ containsSub answer "http://".data then answer
  else pyStrip (joinNl ([answer, [], "Sources:".data] ++ renderedSourceLines sources))

/-! ### Properties of the grounding extractor (C8) -/

theorem nodup_append_singleton {α : Type} {l : List α} {a : α}
    (hl : l.Nodup) (ha : a ∉ l) : (l ++ [a]).Nodup := by
  induction l with
  | nil => simp
  | cons x l ih =>
    rw [List.cons_append, List.nodup_cons]
    refine ⟨?_, ih (List.Nodup.of_cons hl) (fun hm => ha (List.mem_cons_of_mem x hm))⟩
    intro hx
    rcases List.mem_append.mp hx with hx | hx
    · exact (List.nodup_cons.mp hl).1 hx
    · rw [List.mem_singleton] at hx
      exact ha (hx ▸ List.mem_cons_self x l)

theorem head?_dropWhile_false (p : Char → Bool) (l : List Char) :
    ∀ c, (l.dropWhile p).head? = some c → p c = false := by
  induction l with
  | nil => intro c h; simp at h
  | cons a l ih =>
    intro c h
    by_cases hp : p a
    · rw [List.dropWhile_cons, if_pos hp] at h
      exact ih c h
    · rw [List.dropWhile_cons, if_neg hp] at h
      rw [List.head?_cons, Option.some.injEq] at h
      subst h
      simpa using hp

theorem collapseWsRunsGo_nil (fuel : Nat) : collapseWsRunsGo fuel [] = [] := by
  cases fuel <;> rfl

theorem collapseWsRunsGo_collapsed :
    ∀ (fuel : Nat) (s : List Char), s.length ≤ fuel →
      wsCollapsed (collapseWsRunsGo fuel s) = true ∧
      (∀ c, s.head? = some c → isPySpace c = false →
        (collapseWsRunsGo fuel s).head? = some c) ∧
      (collapseWsRunsGo fuel s = [] → s = []) := by
  intro fuel
  induction fuel with
  | zero =>
    intro s hs
    have : s = [] := List.eq_nil_of_length_eq_zero (Nat.le_zero.mp hs)
    subst this
    exact ⟨rfl, by intro c h; simp at h, fun _ => rfl⟩
  | succ fuel ih =>
    intro s hs
    cases s with
    | nil => exact ⟨rfl, by intro c h; simp at h, fun _ => rfl⟩
    | cons c cs =>
      simp only [List.length_cons] at hs
      by_cases hc : isPySpace c
      · have hrest : (cs.dropWhile isPySpace).length ≤ fuel :=
          le_trans (List.dropWhile_suffix isPySpace).sublist.length_le (by omega)
        obtain ⟨ih1, ih2, ih3⟩ := ih (cs.dropWhile isPySpace) hrest
        have hgo : collapseWsRunsGo (fuel + 1) (c :: cs)
            = ' ' :: collapseWsRunsGo fuel (cs.dropWhile isPySpace) := by
          simp only [collapseWsRunsGo]
          rw [if_pos hc]
        refine ⟨?_, ?_, ?_⟩
        · rw [hgo]
          have hhead : (match collapseWsRunsGo fuel (cs.dropWhile isPySpace) with
              | d :: _ => !(isPySpace d)
              | [] => true) = true := by
            cases hout : collapseWsRunsGo fuel (cs.dropWhile isPySpace) with
            | nil => rfl
            | cons d ds =>
              cases hdw : (cs.dropWhile isPySpace) with
              | nil =>
                rw [hdw, collapseWsRunsGo_nil] at hout
                exact absurd hout (by simp)
              | cons e es =>
                have he : isPySpace e = false := by
                  refine head?_dropWhile_false isPySpace cs e ?_
                  rw [hdw]; rfl
                have hh := ih2 e (by rw [hdw]; rfl) he
                rw [hout, List.head?_cons, Option.some.injEq] at hh
                subst hh
                simp [he]
          show wsCollapsed (' ' :: _) = true
          simp only [wsCollapsed]
          rw [if_pos (by decide), hhead, ih1]
          rfl
        · intro c' hc' hns
          rw [List.head?_cons, Option.some.injEq] at hc'
          subst hc'
          exact absurd hc (by simp [hns])
        · intro hnil
          rw [hgo] at hnil
          exact absurd hnil (by simp)
      · have hrest : cs.length ≤ fuel := by omega
        obtain ⟨ih1, ih2, ih3⟩ := ih cs hrest
        have hgo : collapseWsRunsGo (fuel + 1) (c :: cs)
            = c :: collapseWsRunsGo fuel cs := by
          simp only [collapseWsRunsGo]
          rw [if_neg hc]
        refine ⟨?_, ?_, ?_⟩
        · rw [hgo]
          show wsCollapsed (c :: _) = true
          simp only [wsCollapsed]
          rw [if_neg hc]
          exact ih1
        · intro c' hc' _
          rw [List.head?_cons, Option.some.injEq] at hc'
          subst hc'
          rw [hgo]; rfl
        · intro hnil
          rw [hgo] at hnil
          exact absurd hnil (by simp)

theorem wsCollapsed_collapseWsRuns (s : List Char) :
    wsCollapsed (collapseWsRuns s) = true :=
  (collapseWsRunsGo_collapsed s.length s (Nat.le_refl _)).1

/-- Loop invariant of the grounding extractor. -/
def ExtInv (acc : ExtAcc) : Prop :=
  acc.sources.length ≤ MAX_VERIFIED_GROUNDING_SOURCES ∧
  acc.sources.map Prod.snd = acc.seenUrls ∧
  acc.seenUrls.Nodup ∧
  acc.probes.Nodup ∧
  acc.probes = acc.validationCache.map Prod.fst ∧
  (∀ k ∈ acc.validationCache.map Prod.fst, k ∈ acc.seenInputUrls) ∧
  (∀ t ∈ acc.sources, wsCollapsed t.1 = true)

theorem extractGroundGo_spec (verify : List Char → List Char) :
    ∀ (chunks : List GroundChunk) (acc : ExtAcc), ExtInv acc →
      ExtInv (extractGroundGo verify chunks acc) ∧
      ∃ d, (extractGroundGo verify chunks acc).sources.map Prod.snd
          = acc.sources.map Prod.snd ++ d ∧
        d.Sublist (groundingCandidates verify chunks) := by
  intro chunks
  induction chunks with
  | nil =>
    intro acc hinv
    exact ⟨hinv, [], by simp [extractGroundGo], List.nil_sublist _⟩
  | cons chunk rest ih =>
    intro acc hinv
    obtain ⟨i1, i2, i3, i4, i5, i6, i7⟩ := hinv
    show ExtInv (extractGroundGo verify (chunk :: rest) acc) ∧ _
    by_cases hfull : MAX_VERIFIED_GROUNDING_SOURCES ≤ acc.sources.length
    · have hgo : extractGroundGo verify (chunk :: rest) acc = acc := by
        simp only [extractGroundGo]
        rw [if_pos hfull]
      rw [hgo]
      exact ⟨⟨i1, i2, i3, i4, i5, i6, i7⟩, [], by simp, List.nil_sublist _⟩
    · cases chunk with
      | none =>
        have hgo : extractGroundGo verify (none :: rest) acc
            = extractGroundGo verify rest acc := by
          simp only [extractGroundGo]
          rw [if_neg hfull]
        rw [hgo]
        obtain ⟨hinv', d, hd, hsub⟩ := ih acc ⟨i1, i2, i3, i4, i5, i6, i7⟩
        exact ⟨hinv', d, hd, by simpa [groundingCandidates] using hsub⟩
      | some ut =>
        obtain ⟨uriRaw, titleRaw⟩ := ut
        by_cases hskip : pyStrip uriRaw = [] ∨ pyStrip uriRaw ∈ acc.seenInputUrls
        · have hgo : extractGroundGo verify (some (uriRaw, titleRaw) :: rest) acc
              = extractGroundGo verify rest acc := by
            simp only [extractGroundGo]
            rw [if_neg hfull, if_pos hskip]
          rw [hgo]
          obtain ⟨hinv', d, hd, hsub⟩ := ih acc ⟨i1, i2, i3, i4, i5, i6, i7⟩
          refine ⟨hinv', d, hd, ?_⟩
          rcases hskip with hek | hmem
          · simpa [groundingCandidates, hek] using hsub
          · by_cases hek : pyStrip uriRaw = []
            · simpa [groundingCandidates, hek] using hsub
            · by_cases hvk : verify (pyStrip uriRaw) = []
              · simpa [groundingCandidates, hek, hvk] using hsub
              · refine List.Sublist.trans hsub ?_
                simp only [groundingCandidates, List.filterMap_cons]
                rw [if_neg hek, if_neg hvk]
                exact List.sublist_cons_self _ _
        · push_neg at hskip
          obtain ⟨hne, hfresh⟩ := hskip
          have hcachemiss : acc.validationCache.find?
              (fun p => decide (p.1 = pyStrip uriRaw)) = none := by
            rw [List.find?_eq_none]
            intro p hp hdec
            rw [decide_eq_true_eq] at hdec
            exact hfresh (hdec ▸ i6 p.1 (List.mem_map_of_mem Prod.fst hp))
          have hcall : _verify_working_url_cached verify (pyStrip uriRaw)
              acc.validationCache acc.probes
              = (verify (pyStrip uriRaw),
                 acc.validationCache ++ [(pyStrip uriRaw, verify (pyStrip uriRaw))],
                 acc.probes ++ [pyStrip uriRaw]) := by
            unfold _verify_working_url_cached
            rw [hcachemiss]
          have hnotprobe : pyStrip uriRaw ∉ acc.probes := by
            rw [i5]
            intro hm
            exact hfresh (i6 _ hm)
          by_cases hvempty : verify (pyStrip uriRaw) = []
          · have hstep : extractGroundGo verify (some (uriRaw, titleRaw) :: rest) acc
                = extractGroundGo verify rest
                  { acc with
                    seenInputUrls := acc.seenInputUrls ++ [pyStrip uriRaw],
                    validationCache := acc.validationCache
                      ++ [(pyStrip uriRaw, verify (pyStrip uriRaw))],
                    probes := acc.probes ++ [pyStrip uriRaw] } := by
              simp only [extractGroundGo]
              rw [if_neg hfull, if_neg (by push_neg; exact ⟨hne, hfresh⟩), hcall,
                if_pos hvempty]
            rw [hstep]
            have hinv2 : ExtInv
                { acc with
                  seenInputUrls := acc.seenInputUrls ++ [pyStrip uriRaw],
                  validationCache := acc.validationCache
                    ++ [(pyStrip uriRaw, verify (pyStrip uriRaw))],
                  probes := acc.probes ++ [pyStrip uriRaw] } := by
              refine ⟨i1, i2, i3, nodup_append_singleton i4 hnotprobe, ?_, ?_, i7⟩
              · simp only [List.map_append, List.map_cons, List.map_nil]
                rw [i5]
              · intro k hk
                simp only [List.map_append, List.map_cons, List.map_nil,
                  List.mem_append, List.mem_singleton] at hk
                rcases hk with hk | hk
                · exact List.mem_append_left _ (i6 k hk)
                · exact List.mem_append_right _ (by simp [hk])
            obtain ⟨hinv', d, hd, hsub⟩ := ih _ hinv2
            refine ⟨hinv', d, hd, ?_⟩
            simpa [groundingCandidates, hne, hvempty] using hsub
          · by_cases hseen : verify (pyStrip uriRaw) ∈ acc.seenUrls
            · have hstep : extractGroundGo verify (some (uriRaw, titleRaw) :: rest) acc
                  = extractGroundGo verify rest
                    { acc with
                      seenInputUrls := acc.seenInputUrls ++ [pyStrip uriRaw],
                      validationCache := acc.validationCache
                        ++ [(pyStrip uriRaw, verify (pyStrip uriRaw))],
                      probes := acc.probes ++ [pyStrip uriRaw] } := by
                simp only [extractGroundGo]
                rw [if_neg hfull, if_neg (by push_neg; exact ⟨hne, hfresh⟩), hcall,
                  if_neg hvempty, if_pos hseen]
              rw [hstep]
              have hinv2 : ExtInv
                  { acc with
                    seenInputUrls := acc.seenInputUrls ++ [pyStrip uriRaw],
                    validationCache := acc.validationCache
                      ++ [(pyStrip uriRaw, verify (pyStrip uriRaw))],
                    probes := acc.probes ++ [pyStrip uriRaw] } := by
                refine ⟨i1, i2, i3, nodup_append_singleton i4 hnotprobe, ?_, ?_, i7⟩
                · simp only [List.map_append, List.map_cons, List.map_nil]
                  rw [i5]
                · intro k hk
                  simp only [List.map_append, List.map_cons, List.map_nil,
                    List.mem_append, List.mem_singleton] at hk
                  rcases hk with hk | hk
                  · exact List.mem_append_left _ (i6 k hk)
                  · exact List.mem_append_right _ (by simp [hk])
              obtain ⟨hinv', d, hd, hsub⟩ := ih _ hinv2
              refine ⟨hinv', d, hd, ?_⟩
              refine List.Sublist.trans hsub ?_
              simp only [groundingCandidates, List.filterMap_cons]
              rw [if_neg hne, if_neg hvempty]
              exact List.sublist_cons_self _ _
            · have hstep : extractGroundGo verify (some (uriRaw, titleRaw) :: rest) acc
                  = extractGroundGo verify rest
                    { acc with
                      seenInputUrls := acc.seenInputUrls ++ [pyStrip uriRaw],
                      validationCache := acc.validationCache
                        ++ [(pyStrip uriRaw, verify (pyStrip uriRaw))],
                      probes := acc.probes ++ [pyStrip uriRaw],
                      seenUrls := acc.seenUrls ++ [verify (pyStrip uriRaw)],
                      sources := acc.sources
                        ++ [(collapseWsRuns
                              (if pyStrip titleRaw = [] then pyStrip uriRaw
                               else pyStrip titleRaw),
                            verify (pyStrip uriRaw))] } := by
                simp only [extractGroundGo]
                rw [if_neg hfull, if_neg (by push_neg; exact ⟨hne, hfresh⟩), hcall,
                  if_neg hvempty, if_neg hseen]
              rw [hstep]
              have hinv2 : ExtInv
                  { acc with
                    seenInputUrls := acc.seenInputUrls ++ [pyStrip uriRaw],
                    validationCache := acc.validationCache
                      ++ [(pyStrip uriRaw, verify (pyStrip uriRaw))],
                    probes := acc.probes ++ [pyStrip uriRaw],
                    seenUrls := acc.seenUrls ++ [verify (pyStrip uriRaw)],
                    sources := acc.sources
                      ++ [(collapseWsRuns
                            (if pyStrip titleRaw = [] then pyStrip uriRaw
                             else pyStrip titleRaw),
                          verify (pyStrip uriRaw))] } := by
                refine ⟨?_, ?_, ?_, nodup_append_singleton i4 hnotprobe, ?_, ?_, ?_⟩
                · simp only [List.length_append, List.length_cons, List.length_nil]
                  omega
                · simp only [List.map_append, List.map_cons, List.map_nil]
                  rw [i2]
                · exact nodup_append_singleton i3 hseen
                · simp only [List.map_append, List.map_cons, List.map_nil]
                  rw [i5]
                · intro k hk
                  simp only [List.map_append, List.map_cons, List.map_nil,
                    List.mem_append, List.mem_singleton] at hk
                  rcases hk with hk | hk
                  · exact List.mem_append_left _ (i6 k hk)
                  · exact List.mem_append_right _ (by simp [hk])
                · intro t ht
                  rcases List.mem_append.mp ht with ht | ht
                  · exact i7 t ht
                  · rw [List.mem_singleton] at ht
                    subst ht
                    exact wsCollapsed_collapseWsRuns _
              obtain ⟨hinv', d, hd, hsub⟩ := ih _ hinv2
              refine ⟨hinv', verify (pyStrip uriRaw) :: d, ?_, ?_⟩
              · rw [hd]
                simp [List.append_assoc]
              · simp only [groundingCandidates, List.filterMap_cons]
                rw [if_neg hne, if_neg hvempty]
                exact List.Sublist.cons₂ _ hsub

/-- C8: the extracted grounding-source list has at most 8 entries, has no two
entries with the same resolved URL, never probes the same input URL twice
within one extraction (the probe trace has no duplicates — duplicate input
URLs are skipped before verification and the per-call cache is keyed on the
input URL), every title is whitespace-collapsed, order follows the original
citation-chunk order (the resolved-URL list is a sublist of the per-chunk
candidate list), and the renderer shows at most 5 sources. -/
theorem grounding_sources_spec (verify : List Char → List Char)
    (chunks : List GroundChunk) :
    (_extract_grounding_sources verify chunks).length ≤ MAX_VERIFIED_GROUNDING_SOURCES ∧
    ((_extract_grounding_sources verify chunks).map Prod.snd).Nodup ∧
    (extractGroundGo verify chunks ⟨[], [], [], [], []⟩).probes.Nodup ∧
    (∀ t ∈ _extract_grounding_sources verify chunks, wsCollapsed t.1 = true) ∧
    ((_extract_grounding_sources verify chunks).map Prod.snd).Sublist
      (groundingCandidates verify chunks) ∧
    MAX_VERIFIED_GROUNDING_SOURCES = 8 ∧ MAX_RESPONSE_SOURCES = 5 ∧
    (∀ sources, (renderedSourceLines sources).length ≤ MAX_RESPONSE_SOURCES) := by
  have hinit : ExtInv (⟨[], [], [], [], []⟩ : ExtAcc) := by
    refine ⟨by simp [MAX_VERIFIED_GROUNDING_SOURCES], rfl, List.nodup_nil,
      List.nodup_nil, rfl, ?_, ?_⟩
    · intro k hk; simp at hk
    · intro t ht; simp at ht
  obtain ⟨⟨j1, j2, j3, j4, j5, j6, j7⟩, d, hd, hsub⟩ :=
    extractGroundGo_spec verify chunks ⟨[], [], [], [], []⟩ hinit
  refine ⟨j1, ?_, j4, j7, ?_, rfl, rfl, ?_⟩
  · show ((extractGroundGo verify chunks ⟨[], [], [], [], []⟩).sources.map Prod.snd).Nodup
    rw [j2]
    exact j3
  · show ((extractGroundGo verify chunks ⟨[], [], [], [], []⟩).sources.map
      Prod.snd).Sublist (groundingCandidates verify chunks)
    rw [hd]
    simpa using hsub
  · intro sources
    show ((sources.take MAX_RESPONSE_SOURCES).map _).length ≤ MAX_RESPONSE_SOURCES
    rw [List.length_map]
    exact List.length_take_le _ _

/-! ## Alternative-Source Substitution (`_pick_alternative_source_url`,
`_append_official_link`) -/

/-- `_pick_alternative_source_url` (ai_engine.py:187-202).  A source is
`none` for a non-dict entry, `some url` for the raw `source.get("url", "")`
string (grounding sources are already verified upstream). -/
def _pick_alternative_source_url (sources : List (Option (List Char)))
    (failed : List (List Char)) : List Char :=
  match sources with
  | [] => []
  | none :: rest => _pick_alternative_source_url rest failed
  | some u :: rest =>
    let n := _normalize_extracted_url u
    if n = [] ∨ n ∈ failed.map _normalize_extracted_url then
      _pick_alternative_source_url rest failed
    else n

/-- `_append_official_link` (ai_engine.py:205-211). -/
def _append_official_link (answer url : List Char) : List Char :=
  if answer = [] then "Official link: ".data ++ url
  else if containsSub answer url then answer
  else pyStrip (answer ++ '\n' :: '\n' :: ("Official link: ".data ++ url))

/-- The normalized non-empty citation URLs, in order (specification-side). -/
def pickCandidates (sources : List (Option (List Char))) : List (List Char) :=
  sources.filterMap fun s =>
    match s with
    | none => none
    | some u =>
      if _normalize_extracted_url u = [] then none else some (_normalize_extracted_url u)

/-- "The first citation URL not in the failed set" (specification-side). -/
def pickSpec (sources : List (Option (List Char))) (failed : List (List Char)) :
    List Char :=
  (((pickCandidates sources).filter fun n =>
    decide (n ∉ failed.map _normalize_extracted_url)).head?).getD []

theorem pick_eq_pickSpec (sources : List (Option (List Char)))
    (failed : List (List Char)) :
    _pick_alternative_source_url sources failed = pickSpec sources failed := by
  induction sources with
  | nil => rfl
  | cons s rest ih =>
    cases s with
    | none =>
      show _pick_alternative_source_url rest failed = _
      rw [ih]
      rfl
    | some u =>
      by_cases hn : _normalize_extracted_url u = []
      · have h1 : _pick_alternative_source_url (some u :: rest) failed
            = _pick_alternative_source_url rest failed := by
          show (if _ ∨ _ then _ else _) = _
          rw [if_pos (Or.inl hn)]
        rw [h1, ih]
        unfold pickSpec pickCandidates
        simp only [List.filterMap_cons]
        rw [if_pos hn]
      · by_cases hm : _normalize_extracted_url u ∈ failed.map _normalize_extracted_url
        · have h1 : _pick_alternative_source_url (some u :: rest) failed
              = _pick_alternative_source_url rest failed := by
            show (if _ ∨ _ then _ else _) = _
            rw [if_pos (Or.inr hm)]
          rw [h1, ih]
          unfold pickSpec pickCandidates
          simp only [List.filterMap_cons]
          rw [if_neg hn, List.filter_cons]
          rw [if_neg (by simpa using hm)]
        · have h1 : _pick_alternative_source_url (some u :: rest) failed
              = _normalize_extracted_url u := by
            show (if _ ∨ _ then _ else _) = _
            rw [if_neg (by push_neg; exact ⟨hn, hm⟩)]
          rw [h1]
          unfold pickSpec pickCandidates
          simp only [List.filterMap_cons]
          rw [if_neg hn, List.filter_cons]
          rw [if_pos (by simpa using hm)]
          rfl

theorem pick_is_normalized (sources : List (Option (List Char)))
    (failed : List (List Char)) :
    _pick_alternative_source_url sources failed = [] ∨
    ∃ u, _pick_alternative_source_url sources failed = _normalize_extracted_url u := by
  induction sources with
  | nil => exact Or.inl rfl
  | cons s rest ih =>
    cases s with
    | none => exact ih
    | some u =>
      by_cases hc : _normalize_extracted_url u = []
          ∨ _normalize_extracted_url u ∈ failed.map _normalize_extracted_url
      · have h1 : _pick_alternative_source_url (some u :: rest) failed
            = _pick_alternative_source_url rest failed := by
          show (if _ ∨ _ then _ else _) = _
          rw [if_pos hc]
        rw [h1]; exact ih
      · have h1 : _pick_alternative_source_url (some u :: rest) failed
            = _normalize_extracted_url u := by
          show (if _ ∨ _ then _ else _) = _
          rw [if_neg hc]
        exact Or.inr ⟨u, h1⟩

theorem pyStrip_edges (s : List Char) :
    (∀ c, (pyStrip s).head? = some c → isPySpace c = false) ∧
    (∀ c, (pyStrip s).getLast? = some c → isPySpace c = false) := by
  constructor
  · intro c hc
    have hpre : pyStrip s <+: s.dropWhile isPySpace := by
      obtain ⟨t, ht⟩ :=
        List.dropWhile_suffix (l := (s.dropWhile isPySpace).reverse) isPySpace
      refine ⟨t.reverse, ?_⟩
      show pyStrip s ++ t.reverse = s.dropWhile isPySpace
      unfold pyStrip
      rw [← List.reverse_append, ht, List.reverse_reverse]
    obtain ⟨t, ht⟩ := hpre
    cases hps : pyStrip s with
    | nil => rw [hps] at hc; exact absurd hc (by simp)
    | cons d ds =>
      rw [hps] at hc ht
      rw [List.head?_cons, Option.some.injEq] at hc
      cases hc
      refine head?_dropWhile_false isPySpace s c ?_
      rw [← ht]
      rfl
  · intro c hc
    rw [List.getLast?_eq_head?_reverse] at hc
    have hrev : (pyStrip s).reverse
        = (s.dropWhile isPySpace).reverse.dropWhile isPySpace := by
      unfold pyStrip
      rw [List.reverse_reverse]
    rw [hrev] at hc
    exact head?_dropWhile_false isPySpace (s.dropWhile isPySpace).reverse c hc

theorem pyStrip_idem (s : List Char) : pyStrip (pyStrip s) = pyStrip s :=
  pyStrip_eq_self (pyStrip_edges s).1 (pyStrip_edges s).2

theorem findSubGo_nil_pat (s : List Char) (i : Nat) : findSubGo [] s i = some i := by
  cases s with
  | nil => rfl
  | cons c cs =>
    unfold findSubGo
    rw [if_pos List.nil_prefix]

theorem containsSub_of_parts (l1 u l2 : List Char) :
    containsSub (l1 ++ (u ++ l2)) u = true := by
  unfold containsSub strFind
  rw [List.drop_zero]
  cases u with
  | nil => rw [findSubGo_nil_pat]; rfl
  | cons x xs =>
    suffices h : ∀ (a : List Char) (i : Nat),
        (findSubGo (x :: xs) (a ++ ((x :: xs) ++ l2)) i).isSome = true by
      exact h l1 0
    intro a
    induction a with
    | nil =>
      intro i
      rw [List.nil_append, findSubGo_at_head _ _ _ (List.prefix_append _ _)]
      rfl
    | cons c a ih =>
      intro i
      rw [List.cons_append]
      by_cases hp : (x :: xs) <+: c :: (a ++ ((x :: xs) ++ l2))
      · unfold findSubGo
        rw [if_pos hp]
        rfl
      · unfold findSubGo
        rw [if_neg hp]
        exact ih (i + 1)

/-- The trailing-strip of `pyStrip` cannot eat into a suffix ending in a
non-space character, and the leading strip keeps any suffix whose head is
non-space: appending a link line to an answer leaves the link (and its URL)
as a suffix of the stripped result. -/
theorem pyStrip_keeps_suffix (z1 u : List Char) (hu : u ≠ [])
    (hh : ∀ c, u.head? = some c → isPySpace c = false)
    (hl : ∀ c, u.getLast? = some c → isPySpace c = false) :
    pyStrip (z1 ++ u) = z1.dropWhile isPySpace ++ u := by
  have hdrop : (z1 ++ u).dropWhile isPySpace = z1.dropWhile isPySpace ++ u :=
    dropWhile_append_headFalse isPySpace z1 u hh
  unfold pyStrip
  rw [hdrop]
  have hlast : ∀ c, (z1.dropWhile isPySpace ++ u).getLast? = some c →
      isPySpace c = false := by
    intro c hc
    rw [List.getLast?_append] at hc
    cases hgl : u.getLast? with
    | none => exact absurd (List.getLast?_eq_none_iff.mp hgl) hu
    | some lc =>
      rw [hgl, Option.or_some] at hc
      cases hc
      exact hl _ hgl
  rw [dropWhile_eq_self_of_headFalse isPySpace (z1.dropWhile isPySpace ++ u).reverse
    (fun c hc => hlast c (by rwa [List.head?_reverse] at hc)), List.reverse_reverse]

/-- Idempotence core of `_append_official_link` for a normalized, non-empty
URL. -/
theorem append_official_link_idem (answer u : List Char) (hu : u ≠ [])
    (hstrip : pyStrip u = u) :
    _append_official_link (_append_official_link answer u) u
      = _append_official_link answer u := by
  have hh : ∀ c, u.head? = some c → isPySpace c = false := by
    intro c hc
    exact (pyStrip_edges u).1 c (by rwa [hstrip])
  have hl : ∀ c, u.getLast? = some c → isPySpace c = false := by
    intro c hc
    exact (pyStrip_edges u).2 c (by rwa [hstrip])
  by_cases ha : answer = []
  · subst ha
    have h1 : _append_official_link [] u = "Official link: ".data ++ u := by
      unfold _append_official_link
      rw [if_pos rfl]
    rw [h1]
    unfold _append_official_link
    rw [if_neg (by simp), if_pos (by
      have := containsSub_of_parts "Official link: ".data u []
      simpa using this)]
  · by_cases hcont : containsSub answer u = true
    · have h1 : _append_official_link answer u = answer := by
        unfold _append_official_link
        rw [if_neg ha, if_pos hcont]
      rw [h1, h1]
    · have h1 : _append_official_link answer u
          = pyStrip (answer ++ '\n' :: '\n' :: ("Official link: ".data ++ u)) := by
        unfold _append_official_link
        rw [if_neg ha, if_neg (by simpa using hcont)]
      have hshape : answer ++ '\n' :: '\n' :: ("Official link: ".data ++ u)
          = (answer ++ '\n' :: '\n' :: "Official link: ".data) ++ u := by
        simp [List.append_assoc]
      have h2 : _append_official_link answer u
          = (answer ++ '\n' :: '\n' :: "Official link: ".data).dropWhile isPySpace
            ++ u := by
        rw [h1, hshape]
        exact pyStrip_keeps_suffix _ u hu hh hl
      have hX : pyStrip (answer ++ '\n' :: '\n' :: ("Official link: ".data ++ u))
          = (answer ++ '\n' :: '\n' :: "Official link: ".data).dropWhile isPySpace
            ++ u := by
        rw [← h1, h2]
      have hne2 : pyStrip (answer ++ '\n' :: '\n' :: ("Official link: ".data ++ u))
          ≠ [] := by
        rw [hX]
        intro hx
        exact hu (List.append_eq_nil.mp hx).2
      have hcont2 : containsSub
          (pyStrip (answer ++ '\n' :: '\n' :: ("Official link: ".data ++ u))) u
          = true := by
        rw [hX]
        have := containsSub_of_parts
          ((answer ++ '\n' :: '\n' :: "Official link: ".data).dropWhile isPySpace) u []
        simpa using this
      rw [h1]
      unfold _append_official_link
      rw [if_neg hne2, if_pos hcont2]

/-- C9: alternative-source substitution picks the first citation URL whose
normalized form is non-empty and not in the (normalized) failed set; appending
"Official link: {url}" is skipped when the answer already contains the URL as
a substring; and for a picked (hence normalized, non-empty) URL the append is
idempotent — applying it twice equals applying it once. -/
theorem alternative_link_substitution (sources : List (Option (List Char)))
    (failed : List (List Char)) (answer : List Char) :
    (_pick_alternative_source_url sources failed = pickSpec sources failed) ∧
    (∀ (ans u : List Char), ans ≠ [] → containsSub ans u = true →
      _append_official_link ans u = ans) ∧
    (_pick_alternative_source_url sources failed ≠ [] →
      _append_official_link
          (_append_official_link answer (_pick_alternative_source_url sources failed))
          (_pick_alternative_source_url sources failed)
        = _append_official_link answer (_pick_alternative_source_url sources failed)) := by
  refine ⟨pick_eq_pickSpec sources failed, ?_, ?_⟩
  · intro ans u hne hcont
    unfold _append_official_link
    rw [if_neg hne, if_pos hcont]
  · intro hne
    rcases pick_is_normalized sources failed with hnil | ⟨u, hu⟩
    · exact absurd hnil hne
    · refine append_official_link_idem answer _ hne ?_
      rw [hu]
      show pyStrip (_normalize_extracted_url u) = _normalize_extracted_url u
      unfold _normalize_extracted_url
      exact pyStrip_idem _

/-- Witness for `alternative_link_substitution`: skipping when the URL is
already present, and idempotence of the append for a concretely picked URL. -/
theorem alternative_link_substitution_witness :
    (_append_official_link "see https://g.h now".data "https://g.h".data
      = "see https://g.h now".data) ∧
    (_append_official_link
        (_append_official_link "update soon.".data
          (_pick_alternative_source_url
            [some "https://bad.x".data, some "https://good.y".data]
            ["https://bad.x".data]))
        (_pick_alternative_source_url
          [some "https://bad.x".data, some "https://good.y".data]
          ["https://bad.x".data])
      = _append_official_link "update soon.".data
          (_pick_alternative_source_url
            [some "https://bad.x".data, some "https://good.y".data]
            ["https://bad.x".data])) :=
  ⟨(alternative_link_substitution [] [] []).2.1 "see https://g.h now".data
      "https://g.h".data (by decide) (by decide),
   (alternative_link_substitution
      [some "https://bad.x".data, some "https://good.y".data]
      ["https://bad.x".data] "update soon.".data).2.2 (by decide)⟩
